import Mathlib

/-!
Verification of the NCP (Node Communication Protocol) packet codec from
`ncplib` (`ncplib/packets.py` and `ncplib/decoder.py`), as a shallow
embedding over byte lists (`List Nat`, each element a byte value).

Little-endian integers, identifier padding/stripping, the packet/field/param
wire layout, the embedded-footer workaround, and the legacy decoder's
ordered-dictionary parameter handling are all translated from the source.
The value codec (`ncplib/values.py`), timestamp helpers
(`ncplib/helpers.py`) and the `ParamType` tag enumeration
(`ncplib/constants.py`) are not part of the available source and are
modelled from the protocol specification; each such definition is marked
in its doc comment.
-/

namespace NCPSpec

/-- Little-endian encoding of `n` into `w` bytes (mirrors Python
`int.to_bytes(w, "little")` after range checks are done by the caller). -/
def toLE : Nat → Nat → List Nat
  | 0, _ => []
  | w + 1, n => n % 256 :: toLE w (n / 256)

/-- Little-endian interpretation of a byte list (mirrors Python
`int.from_bytes(data, "little")` for unsigned values). -/
def fromLE : List Nat → Nat
  | [] => 0
  | b :: bs => b + 256 * fromLE bs

/-- Signed reinterpretation of an unsigned value `n` modulo `m`
(two's complement with modulus `m`). -/
def svalM (n m : Nat) : Int :=
  if 2 * n < m then (n : Int) else (n : Int) - (m : Int)

/-- Little-endian signed interpretation of a byte list (mirrors Python
`int.from_bytes(data, "little", signed=True)`). -/
def sfromLE (l : List Nat) : Int :=
  svalM (fromLE l) (256 ^ l.length)

/-- `slice l off n` is Python `l[off:off+n]` (clamped at buffer end). -/
def slice (l : List Nat) (off n : Nat) : List Nat :=
  (l.drop off).take n

/-- `lastN n l` is Python `l[-n:]` for `0 < n ≤ len(l)` (whole list when
shorter, matching Python slice clamping). -/
def lastN (n : Nat) (l : List Nat) : List Nat :=
  l.drop (l.length - n)

/-- Whether a byte is stripped by `bytes.rstrip(b" \x00")`. -/
def isPadByte (b : Nat) : Bool := b == 0 || b == 32

/-- Python `data.rstrip(b" \x00")`: remove trailing NUL and space bytes. -/
def rstrip (l : List Nat) : List Nat :=
  (l.reverse.dropWhile isPadByte).reverse

/-- Python `struct` `"4s"` packing: truncate to 4 bytes or NUL-pad on the
right to exactly 4 bytes. -/
def pad4 (l : List Nat) : List Nat :=
  l.take 4 ++ List.replicate (4 - l.length) 0

/-- NUL-pad a byte string on the right to the next multiple of 4. -/
def padTo4 (l : List Nat) : List Nat :=
  l ++ List.replicate ((4 - l.length % 4) % 4) 0

/-- Split a byte list into unsigned little-endian 16-bit values
(mirrors Python `array("H", data)` on a little-endian host). -/
def chunksU2 : List Nat → List Nat
  | a :: b :: r => (a + 256 * b) :: chunksU2 r
  | _ => []

/-- Split a byte list into unsigned little-endian 32-bit values
(mirrors Python `array("I", data)` on a little-endian host). -/
def chunksU4 : List Nat → List Nat
  | a :: b :: c :: d :: r => (a + 256 * b + 65536 * c + 16777216 * d) :: chunksU4 r
  | _ => []

/-- Split a byte list into signed little-endian 16-bit values
(mirrors Python `array("h", data)` on a little-endian host). -/
def chunksS2 : List Nat → List Int
  | a :: b :: r => svalM (a + 256 * b) 65536 :: chunksS2 r
  | _ => []

/-- Split a byte list into signed little-endian 32-bit values
(mirrors Python `array("i", data)` on a little-endian host). -/
def chunksS4 : List Nat → List Int
  | a :: b :: c :: d :: r =>
      svalM (a + 256 * b + 65536 * c + 16777216 * d) 4294967296 :: chunksS4 r
  | _ => []

/-- A typed NCP parameter value (the tagged variant of the protocol data
model; the `vUnknown` arm carries an undecoded `(tag, bytes)` pair). -/
inductive NCPValue where
  | vInt (i : Int)
  | vStr (s : List Nat)
  | vRaw (b : List Nat)
  | vU8 (xs : List Nat)
  | vU16 (xs : List Nat)
  | vU32 (xs : List Nat)
  | vI8 (xs : List Int)
  | vI16 (xs : List Int)
  | vI32 (xs : List Int)
  | vUnknown (tag : Nat) (b : List Nat)
deriving DecidableEq

/-- Modelled from the spec: `ncplib/values.py` (not in the available source)
defines `encode_value(v) -> (tag, bytes)`. Integers that fit in signed
32-bit use tag 0x00; integers that need unsigned 32-bit use 0x01;
out-of-range integers fail with `EncodeError` (`none`). Strings are Latin-1
encoded (failing on code points above 255), NUL-terminated, and padded to a
multiple of 4. Byte sequences use tag 0x80 and integer arrays the matching
array tag with little-endian element layout. -/
def encodeValue : NCPValue → Option (Nat × List Nat)
  | .vInt i =>
      if -2147483648 ≤ i ∧ i < 2147483648 then
        some (0, toLE 4 (i % 4294967296).toNat)
      else if i < 4294967296 then
        some (1, toLE 4 i.toNat)
      else none
  | .vStr s => if s.all (· < 256) then some (2, padTo4 (s ++ [0])) else none
  | .vRaw b => some (128, b)
  | .vU8 xs => some (129, xs)
  | .vU16 xs => some (130, xs.flatMap (toLE 2))
  | .vU32 xs => some (131, xs.flatMap (toLE 4))
  | .vI8 xs => some (132, xs.map (fun i => (i % 256).toNat))
  | .vI16 xs => some (133, xs.map (fun i => (i % 65536).toNat) |>.flatMap (toLE 2))
  | .vI32 xs => some (134, xs.map (fun i => (i % 4294967296).toNat) |>.flatMap (toLE 4))
  | .vUnknown _ _ => none

/-- Modelled from the spec: `ncplib/values.py` (not in the available source)
defines `decode_value(tag, bytes)`, the inverse of `encode_value`: signed
and unsigned little-endian integers for tags 0x00/0x01, strings split at
the first NUL for tag 0x02, raw bytes for 0x80, packed little-endian
arrays for 0x81-0x86, and an opaque `(tag, bytes)` pair for unknown tags. -/
def decodeValue (tag : Nat) (data : List Nat) : NCPValue :=
  match tag with
  | 0 => .vInt (sfromLE data)
  | 1 => .vInt (fromLE data)
  | 2 => .vStr (data.takeWhile (· ≠ 0))
  | 128 => .vRaw data
  | 129 => .vU8 data
  | 130 => .vU16 (chunksU2 data)
  | 131 => .vU32 (chunksU4 data)
  | 132 => .vI8 (data.map (fun b => svalM b 256))
  | 133 => .vI16 (chunksS2 data)
  | 134 => .vI32 (chunksS4 data)
  | t => .vUnknown t data

/-- Modelled from the spec: `ncplib/helpers.py` (not in the available
source) converts between datetimes and `(seconds, nanoseconds)` pairs;
timestamps have microsecond resolution, so a timestamp is a pair of a Unix
second count and a microsecond count below 1000000. -/
structure NCPTime where
  sec : Nat
  micro : Nat
deriving DecidableEq

/-- Modelled from the spec: `datetime_to_unix` from `ncplib/helpers.py`;
nanoseconds are derived from microseconds by multiplying by 1000. -/
def timeToUnix (t : NCPTime) : Nat × Nat := (t.sec, t.micro * 1000)

/-- Modelled from the spec: `unix_to_datetime` from `ncplib/helpers.py`;
microsecond resolution is sufficient on decode. -/
def unixToTime (sec nano : Nat) : NCPTime := ⟨sec, nano / 1000⟩

/-- A named parameter: `(name, value)` with the name held as its Latin-1
byte sequence. -/
structure NCPParam where
  name : List Nat
  value : NCPValue
deriving DecidableEq

/-- A field: `(name, id, params)`. -/
structure NCPField where
  name : List Nat
  fid : Nat
  params : List NCPParam
deriving DecidableEq

/-- A packet: `(type, id, timestamp, info, fields)`. -/
structure NCPPacket where
  ptype : List Nat
  pid : Nat
  time : NCPTime
  info : List Nat
  fields : List NCPField
deriving DecidableEq

/-- The 4 header magic bytes `DD CC BB AA` (`PACKET_HEADER`). -/
def headerMagic : List Nat := [221, 204, 187, 170]

/-- The 4 footer magic bytes `AA BB CC DD` (`PACKET_FOOTER`). -/
def footerMagic : List Nat := [170, 187, 204, 221]

/-- The 8 footer bytes `00 00 00 00 AA BB CC DD`
(`PACKET_FOOTER_NO_CHECKSUM`). -/
def footer8 : List Nat := [0, 0, 0, 0, 170, 187, 204, 221]

theorem footer8_length : footer8.length = 8 := rfl

/-- One encoded parameter from the params loop of `encode_packet`
(`ncplib/packets.py`): 4-byte packed name, 3-byte little-endian
size-in-words, 1-byte type tag, the encoded value, NUL padding to a
4-byte boundary. `none` when the value is not encodable or the 3-byte
size field overflows (`int.to_bytes(3, "little")` raising). -/
def encodeParam (p : NCPParam) : Option (List Nat) :=
  (encodeValue p.value).bind fun (tid, ev) =>
    let psize := 8 + ev.length
    let padsz := (4 - psize % 4) % 4
    let w := (psize + padsz) / 4
    if w < 16777216 then
      some (pad4 p.name ++ toLE 3 w ++ [tid] ++ ev ++ List.replicate padsz 0)
    else none

/-- Concatenation of the encoded parameters of one field. -/
def encodeParams : List NCPParam → Option (List Nat)
  | [] => some []
  | p :: ps => do
      let c ← encodeParam p
      let r ← encodeParams ps
      pure (c ++ r)

/-- One encoded field from `encode_packet`: 4-byte packed name, 3-byte
size-in-words (patched in after the params are written), a zero type
byte, 4-byte little-endian field id, then the encoded params. `none` on
size-field or id overflow (`to_bytes`/`struct` raising). -/
def encodeField (f : NCPField) : Option (List Nat) :=
  (encodeParams f.params).bind fun body =>
    let w := (12 + body.length) / 4
    if w < 16777216 ∧ f.fid < 4294967296 then
      some (pad4 f.name ++ toLE 3 w ++ [0] ++ toLE 4 f.fid ++ body)
    else none

/-- Concatenation of the encoded fields of a packet. -/
def encodeFields : List NCPField → Option (List Nat)
  | [] => some []
  | f :: fs => do
      let c ← encodeField f
      let r ← encodeFields fs
      pure (c ++ r)

/-- `encode_packet` from `ncplib/packets.py`: the 32-byte header (magic,
packed type, total size-in-words, id, version 1, Unix seconds,
nanoseconds, 4 packed info bytes), the encoded fields, then the 8 footer
bytes. `none` when a `struct` `"I"` value is out of range, the size word
overflows, or a value is not encodable. -/
def encodePacket (p : NCPPacket) : Option (List Nat) :=
  (encodeFields p.fields).bind fun fb =>
    let w := (32 + fb.length + 8) / 4
    if w < 4294967296 ∧ p.pid < 4294967296 ∧ p.time.sec < 4294967296 ∧
        p.time.micro * 1000 < 4294967296 then
      some (headerMagic ++ pad4 p.ptype ++ toLE 4 w ++ toLE 4 p.pid ++
        toLE 4 1 ++ toLE 4 p.time.sec ++ toLE 4 (p.time.micro * 1000) ++
        pad4 p.info ++ fb ++ footer8)
    else none

/-- Decode failure, abstracting the exceptions `decode_packet`
(`ncplib/packets.py`) can raise: a too-short header buffer
(`struct.unpack` failing), the two `DecodeError` magic checks, a
`struct.unpack_from` beyond the buffer end, the two overflow
`DecodeError`s, and `fuelOut` marking an iteration bound exhausted (the
Python loop not terminating within the given fuel). -/
inductive DecErr where
  | truncHeader
  | badHeader
  | badFooter
  | shortRead
  | paramOverflow
  | fieldOverflow
  | fuelOut
deriving DecidableEq

instance {ε α : Type} [DecidableEq ε] [DecidableEq α] : DecidableEq (Except ε α)
  | .error e, .error e' =>
      if h : e = e' then .isTrue (by rw [h])
      else .isFalse (fun hc => h (by injection hc))
  | .error _, .ok _ => .isFalse (fun hc => Except.noConfusion hc)
  | .ok _, .error _ => .isFalse (fun hc => Except.noConfusion hc)
  | .ok a, .ok a' =>
      if h : a = a' then .isTrue (by rw [h])
      else .isFalse (fun hc => h (by injection hc))

/-- The params `while` loop of `decode_packet_cps` (`ncplib/packets.py`,
lines 131-149), fuelled: while `offset < param_limit`, skip an embedded
`00 00 00 00 AA BB CC DD` footer with a warning, otherwise unpack an
8-byte param header, decode the value bytes up to the declared size, and
advance by the declared size, raising on param overflow. Returns the
collected params, the final offset and the warning count. -/
def decodeParams : Nat → List Nat → Nat → Int → List NCPParam → Nat →
    Except DecErr (List NCPParam × Nat × Nat)
  | 0, _, off, plim, acc, warns =>
    if (off : Int) < plim then .error .fuelOut else .ok (acc, off, warns)
  | fuel + 1, body, off, plim, acc, warns =>
    if (off : Int) < plim then
      if slice body off 8 = footer8 then
        decodeParams fuel body (off + 8) plim acc (warns + 1)
      else if body.length < off + 8 then .error .shortRead
      else
        let pname := rstrip (slice body off 4)
        let psize := fromLE (slice body (off + 4) 3) * 4
        let ptid := fromLE (slice body (off + 7) 1)
        let pval := decodeValue ptid (slice body (off + 8) (psize - 8))
        if (off + psize : Int) > plim then .error .paramOverflow
        else decodeParams fuel body (off + psize) plim
          (acc ++ [⟨pname, pval⟩]) warns
    else .ok (acc, off, warns)

/-- The fields `while` loop of `decode_packet_cps` (`ncplib/packets.py`,
lines 124-151), fuelled: while `offset < field_limit`, unpack a 12-byte
field header, run the params loop up to the field's declared limit, and
collect the field. -/
def decodeFields : Nat → List Nat → Nat → Int → List NCPField → Nat →
    Except DecErr (List NCPField × Nat × Nat)
  | 0, _, off, flim, acc, warns =>
    if (off : Int) < flim then .error .fuelOut else .ok (acc, off, warns)
  | fuel + 1, body, off, flim, acc, warns =>
    if (off : Int) < flim then
      if body.length < off + 12 then .error .shortRead
      else
        let fname := rstrip (slice body off 4)
        let fw := fromLE (slice body (off + 4) 3)
        let fid := fromLE (slice body (off + 8) 4)
        let plim : Int := (off : Int) + (fw * 4 : Nat)
        match decodeParams (body.length + 1) body (off + 12) plim [] warns with
        | .error e => .error e
        | .ok (params, off', warns') =>
          decodeFields fuel body off' flim (acc ++ [⟨fname, fid, params⟩]) warns'
    else .ok (acc, off, warns)

/-- `decode_packet` composed with `decode_packet_cps`
(`ncplib/packets.py`): unpack the 32-byte header, check the header magic,
check the footer magic on the last 4 bytes, run the fields loop up to
`packet_size - header - footer`, check field overflow, and rebuild the
packet with stripped type, id, timestamp, info and fields. The result
also carries the number of `DecodeWarning`s emitted. -/
def decodePacket (buf : List Nat) : Except DecErr (NCPPacket × Nat) :=
  if buf.length < 32 then .error .truncHeader
  else if slice buf 0 4 ≠ headerMagic then .error .badHeader
  else if lastN 4 (buf.drop 32) ≠ footerMagic then .error .badFooter
  else
    match decodeFields ((buf.drop 32).length + 1) (buf.drop 32) 0
        ((fromLE (slice buf 8 4) * 4 : Nat) - 32 - 8 : Int) [] 0 with
    | .error e => .error e
    | .ok (fields, off, warns) =>
      if (off : Int) > ((fromLE (slice buf 8 4) * 4 : Nat) - 32 - 8 : Int) then
        .error .fieldOverflow
      else .ok (⟨rstrip (slice buf 4 4), fromLE (slice buf 12 4),
        unixToTime (fromLE (slice buf 20 4)) (fromLE (slice buf 24 4)),
        slice buf 28 4, fields⟩, warns)

/-- `peek_packet_size` from `ncplib/decoder.py`: the little-endian
unsigned value at offset 8, times 4. -/
def peekPacketSize (data : List Nat) : Nat :=
  fromLE (slice data 8 4) * 4

/-- The image of a parameter under encode-then-decode: the value bytes
produced by `encode_value`, padded to a 4-byte boundary by the packet
layer, interpreted by `decode_value`. -/
def decParamOf (p : NCPParam) : NCPParam :=
  match encodeValue p.value with
  | some (tid, ev) =>
      ⟨p.name, decodeValue tid (ev ++ List.replicate ((4 - (8 + ev.length) % 4) % 4) 0)⟩
  | none => p

/-- The image of a field under encode-then-decode. -/
def decFieldOf (f : NCPField) : NCPField :=
  ⟨f.name, f.fid, f.params.map decParamOf⟩

/-- The image of a packet under encode-then-decode. -/
def decPacketOf (p : NCPPacket) : NCPPacket :=
  ⟨p.ptype, p.pid, p.time, p.info, p.fields.map decFieldOf⟩

/-- A well-formed identifier: 1-4 Latin-1 bytes with no trailing space
or NUL (so `struct` packing followed by `rstrip` round-trips it). -/
def wfName (n : List Nat) : Prop :=
  1 ≤ n.length ∧ n.length ≤ 4 ∧ (∀ b ∈ n, b < 256) ∧
    ∀ b, n.getLast? = some b → b ≠ 0 ∧ b ≠ 32

instance (n : List Nat) : Decidable (wfName n) := by
  unfold wfName; infer_instance

/-- A parameter value of one of the supported shapes, with every
component representable on the wire (the conditions under which
`encode_value` succeeds and emits faithful bytes). -/
def wfValue : NCPValue → Prop
  | .vInt i => -2147483648 ≤ i ∧ i < 4294967296
  | .vStr s => ∀ b ∈ s, b < 256
  | .vRaw b => ∀ x ∈ b, x < 256
  | .vU8 xs => ∀ x ∈ xs, x < 256
  | .vU16 xs => ∀ x ∈ xs, x < 65536
  | .vU32 xs => ∀ x ∈ xs, x < 4294967296
  | .vI8 xs => ∀ x ∈ xs, -128 ≤ x ∧ x < 128
  | .vI16 xs => ∀ x ∈ xs, -32768 ≤ x ∧ x < 32768
  | .vI32 xs => ∀ x ∈ xs, -2147483648 ≤ x ∧ x < 2147483648
  | .vUnknown _ _ => False

instance (v : NCPValue) : Decidable (wfValue v) := by
  cases v <;> (unfold wfValue; infer_instance)

/-- The extra conditions under which a value survives the packet layer's
NUL padding to a 4-byte boundary: no embedded NUL in strings, and byte
payloads already a multiple of 4 bytes long. -/
def padSafeValue : NCPValue → Prop
  | .vStr s => 0 ∉ s
  | .vRaw b => b.length % 4 = 0
  | .vU8 xs => xs.length % 4 = 0
  | .vI8 xs => xs.length % 4 = 0
  | .vU16 xs => xs.length % 2 = 0
  | .vI16 xs => xs.length % 2 = 0
  | _ => True

instance (v : NCPValue) : Decidable (padSafeValue v) := by
  cases v <;> (unfold padSafeValue; infer_instance)

/-- Structurally well-formed parameter: well-formed name and
representable value. -/
def wfParam (p : NCPParam) : Prop := wfName p.name ∧ wfValue p.value

instance (p : NCPParam) : Decidable (wfParam p) := by
  unfold wfParam; infer_instance

/-- Structurally well-formed field: well-formed name, `u32` id,
well-formed params. -/
def wfField (f : NCPField) : Prop :=
  wfName f.name ∧ f.fid < 4294967296 ∧ ∀ p ∈ f.params, wfParam p

instance (f : NCPField) : Decidable (wfField f) := by
  unfold wfField; infer_instance

/-- Structurally well-formed packet: well-formed type, `u32` id,
`u32`-second timestamp with microsecond resolution, 4 info bytes,
well-formed fields. -/
def wfPacket (p : NCPPacket) : Prop :=
  wfName p.ptype ∧ p.pid < 4294967296 ∧ p.time.sec < 4294967296 ∧
    p.time.micro < 1000000 ∧ p.info.length = 4 ∧ (∀ b ∈ p.info, b < 256) ∧
    ∀ f ∈ p.fields, wfField f

instance (p : NCPPacket) : Decidable (wfPacket p) := by
  unfold wfPacket; infer_instance

/-- A packet whose every parameter value additionally survives padding
(the hypothesis of the exact round-trip). -/
def wfPacketRT (p : NCPPacket) : Prop :=
  wfPacket p ∧ ∀ f ∈ p.fields, ∀ prm ∈ f.params, padSafeValue prm.value

instance (p : NCPPacket) : Decidable (wfPacketRT p) := by
  unfold wfPacketRT; infer_instance

/-- The field of the embedded-footer test input: encoded like
`encodeField`, but with the 8 bytes `00 00 00 00 AA BB CC DD` inserted
between the params `ps1` and the params `ps2`, and the field
size-in-words covering them. -/
def glitchField (name : List Nat) (fid : Nat) (ps1 ps2 : List NCPParam) :
    Option (List Nat) :=
  (encodeParams ps1).bind fun b1 =>
    (encodeParams ps2).bind fun b2 =>
      if (12 + (b1 ++ footer8 ++ b2).length) / 4 < 16777216 ∧ fid < 4294967296 then
        some (pad4 name ++ toLE 3 ((12 + (b1 ++ footer8 ++ b2).length) / 4) ++ [0]
          ++ toLE 4 fid ++ (b1 ++ footer8 ++ b2))
      else none

/-- The embedded-footer test input: the packet
`⟨pt, pid, time, info, fs1 ++ f :: fs2⟩` encoded like `encodePacket`,
except that the field `f` (whose params are split as `ps1 ++ ps2`) is
encoded by `glitchField`, and the packet size-in-words covers the 8
inserted bytes. -/
def glitchEncodePacket (pt : List Nat) (pid : Nat) (time : NCPTime)
    (info : List Nat) (fs1 : List NCPField) (f : NCPField)
    (ps1 ps2 : List NCPParam) (fs2 : List NCPField) : Option (List Nat) :=
  (encodeFields fs1).bind fun b1 =>
    (glitchField f.name f.fid ps1 ps2).bind fun gb =>
      (encodeFields fs2).bind fun b2 =>
        if (32 + (b1 ++ gb ++ b2).length + 8) / 4 < 4294967296 ∧ pid < 4294967296 ∧
            time.sec < 4294967296 ∧ time.micro * 1000 < 4294967296 then
          some (headerMagic ++ pad4 pt ++ toLE 4 ((32 + (b1 ++ gb ++ b2).length + 8) / 4)
            ++ toLE 4 pid ++ toLE 4 1 ++ toLE 4 time.sec ++ toLE 4 (time.micro * 1000)
            ++ pad4 info ++ (b1 ++ gb ++ b2) ++ footer8)
        else none

/-- A parameter value decoded by the legacy decoder (`ncplib/decoder.py`):
the results of the `_PARAM_VALUE_DECODERS` table, plus `rawPair` for the
`RawParamValue(value, type_id)` wrapper used for raw mode and unknown
tags. -/
inductive DVal where
  | dInt (i : Int)
  | dStr (s : List Nat)
  | dRaw (b : List Nat)
  | dU8 (xs : List Nat)
  | dU16 (xs : List Nat)
  | dU32 (xs : List Nat)
  | dI8 (xs : List Int)
  | dI16 (xs : List Int)
  | dI32 (xs : List Int)
  | rawPair (tag : Nat) (b : List Nat)
deriving DecidableEq

/-- `_decode_param_value` from `ncplib/decoder.py`: look the 1-byte tag up
in the `ParamType` enumeration and dispatch through
`_PARAM_VALUE_DECODERS`; a tag outside the enumeration is not an error
and yields `RawParamValue(data, tag)`. The set of defined tags
{0x00, 0x01, 0x02, 0x80, 0x81, 0x82, 0x83, 0x84, 0x85, 0x86} is modelled
from the spec (`ParamType` lives in `ncplib/constants.py`, which is not
in the available source). `none` models the `ValueError` that
`array(...)` raises on a payload length that is not a multiple of the
element size. -/
def decodeParamValueD (tag : Nat) (data : List Nat) : Option DVal :=
  match tag with
  | 0 => some (.dInt (sfromLE data))
  | 1 => some (.dInt (fromLE data))
  | 2 => some (.dStr data)
  | 128 => some (.dRaw data)
  | 129 => some (.dU8 data)
  | 130 => if data.length % 2 = 0 then some (.dU16 (chunksU2 data)) else none
  | 131 => if data.length % 4 = 0 then some (.dU32 (chunksU4 data)) else none
  | 132 => some (.dI8 (data.map (fun b => svalM b 256)))
  | 133 => if data.length % 2 = 0 then some (.dI16 (chunksS2 data)) else none
  | 134 => if data.length % 4 = 0 then some (.dI32 (chunksS4 data)) else none
  | t => some (.rawPair t data)

/-- `_decode_param` from `ncplib/decoder.py`: the unstripped 4 name
bytes, the declared size in bytes, and the value decoded from the bytes
following the 8-byte header, split at the first NUL before any
type-specific decoding (`.split(b"\x00", 1)[0]`). In raw mode the split
payload is wrapped as `RawParamValue` instead of being decoded. -/
def decodeParamD (raw : Bool) (pd : List Nat) : List Nat × Nat × Option DVal :=
  let pname := pd.take 4
  let psize := fromLE (slice pd 4 3) * 4
  let ptid := fromLE (slice pd 7 1)
  let pvdata := (pd.drop 8).takeWhile (· ≠ 0)
  (pname, psize,
    if raw then some (.rawPair ptid pvdata) else decodeParamValueD ptid pvdata)

/-- Insertion into the `OrderedDict` of `_decode_field`
(`params[param_name] = param_value`): an existing key keeps its position
and gets the new value; a new key is appended. -/
def odInsert (k : List Nat) (v : DVal) :
    List (List Nat × DVal) → List (List Nat × DVal)
  | [] => [(k, v)]
  | (k', v') :: rest =>
      if k' = k then (k, v) :: rest else (k', v') :: odInsert k v rest

/-- Lookup in the ordered dictionary (Python `params[name]`). -/
def odGet (k : List Nat) : List (List Nat × DVal) → Option DVal
  | [] => none
  | (k', v) :: rest => if k' = k then some v else odGet k rest

/-- How many entries of the ordered dictionary carry the key `k`. -/
def odCount (k : List Nat) : List (List Nat × DVal) → Nat
  | [] => 0
  | (k', _) :: rest => (if k' = k then 1 else 0) + odCount k rest

/-- The value of the last pair with key `k` in a wire-order pair list. -/
def lastAssoc (k : List Nat) : List (List Nat × DVal) → Option DVal
  | [] => none
  | (k', v) :: rest =>
      match lastAssoc k rest with
      | some v' => some v'
      | none => if k' = k then some v else none

/-- The params `while` loop of `_decode_field` (`ncplib/decoder.py`,
lines 92-98), fuelled: decode the param at the read position, store it in
the ordered dictionary, advance by its declared size; after the loop,
a position beyond the data size is a `DecodeError` (`none`). -/
def fieldLoopD (raw : Bool) : Nat → List Nat → Nat → List (List Nat × DVal) →
    Option (List (List Nat × DVal))
  | 0, pdata, pos, od =>
    if pos < pdata.length then none
    else if pos = pdata.length then some od else none
  | fuel + 1, pdata, pos, od =>
    if pos < pdata.length then
      match decodeParamD raw (pdata.drop pos) with
      | (_, _, none) => none
      | (pname, psize, some pval) =>
        fieldLoopD raw fuel pdata (pos + psize) (odInsert pname pval od)
    else if pos = pdata.length then some od else none

/-- The same loop as `fieldLoopD`, collecting the decoded
`(name, value)` pairs as a plain list in wire order instead of an
ordered dictionary. -/
def collectLoopD (raw : Bool) : Nat → List Nat → Nat →
    Option (List (List Nat × DVal))
  | 0, pdata, pos =>
    if pos < pdata.length then none
    else if pos = pdata.length then some [] else none
  | fuel + 1, pdata, pos =>
    if pos < pdata.length then
      match decodeParamD raw (pdata.drop pos) with
      | (_, _, none) => none
      | (pname, psize, some pval) =>
        (collectLoopD raw fuel pdata (pos + psize)).map ((pname, pval) :: ·)
    else if pos = pdata.length then some [] else none

/-- `_decode_field` from `ncplib/decoder.py`: the unstripped 4 name
bytes, the declared size in bytes, and the params of
`field_data[12:field_size]` folded into an ordered dictionary. -/
def decodeFieldD (raw : Bool) (fuel : Nat) (fd : List Nat) :
    Option (List Nat × Nat × List (List Nat × DVal)) :=
  let fname := fd.take 4
  let fsize := fromLE (slice fd 4 3) * 4
  (fieldLoopD raw fuel (slice fd 12 (fsize - 12)) 0 []).map
    fun od => (fname, fsize, od)

theorem toLE_length (w n : Nat) : (toLE w n).length = w := by
  induction w generalizing n with
  | zero => rfl
  | succ w ih => simp [toLE, ih]

theorem fromLE_toLE {w n : Nat} (h : n < 256 ^ w) : fromLE (toLE w n) = n := by
  induction w generalizing n with
  | zero => simp [toLE, fromLE]; omega
  | succ w ih =>
    have hdiv : n / 256 < 256 ^ w := by
      rw [Nat.div_lt_iff_lt_mul (by norm_num)]
      calc n < 256 ^ (w + 1) := h
        _ = 256 ^ w * 256 := by ring
    simp only [toLE, fromLE, ih hdiv]
    omega

theorem fromLE_singleton (b : Nat) : fromLE [b] = b := by
  simp [fromLE]

theorem svalM_emod {M : Nat} (i : Int) (hM : 0 < M)
    (h1 : -(M : Int) ≤ 2 * i) (h2 : 2 * i < (M : Int)) :
    svalM (i % (M : Int)).toNat M = i := by
  have hMne : (M : Int) ≠ 0 := by exact_mod_cast hM.ne'
  rcases le_or_lt 0 i with hi | hi
  · have hiM : i < (M : Int) := by omega
    have : i % (M : Int) = i := Int.emod_eq_of_lt hi hiM
    rw [this, svalM]
    have hc : (i.toNat : Int) = i := Int.toNat_of_nonneg hi
    have : 2 * i.toNat < M := by omega
    rw [if_pos this, hc]
  · have heq : i % (M : Int) = i + M := by
      have h0 : (i + M) % (M : Int) = i % (M : Int) := by
        have := Int.add_mul_emod_self_left (a := i) (b := (M : Int)) (c := 1)
        simpa using this
      have hnn : 0 ≤ i + M := by omega
      have hlt : i + M < (M : Int) := by omega
      rw [← h0, Int.emod_eq_of_lt hnn hlt]
    rw [heq, svalM]
    have hc : ((i + M).toNat : Int) = i + M := Int.toNat_of_nonneg (by omega)
    have : ¬ 2 * (i + (M : Int)).toNat < M := by omega
    rw [if_neg this]
    omega

theorem emod_toNat_lt {M : Nat} (i : Int) (hM : 0 < M) :
    (i % (M : Int)).toNat < M := by
  have hMne : (M : Int) ≠ 0 := by exact_mod_cast hM.ne'
  have h1 := Int.emod_nonneg i hMne
  have h2 := Int.emod_lt_of_pos i (b := (M : Int)) (by exact_mod_cast hM)
  omega

theorem slice_length (l : List Nat) (off n : Nat) :
    (slice l off n).length = min n (l.length - off) := by
  simp [slice]

theorem slice_append_start {a : List Nat} (b : List Nat) {off : Nat}
    (h : a.length = off) (n : Nat) : slice (a ++ b) off n = b.take n := by
  subst h; simp [slice, List.drop_left]

theorem slice_append_shift {a : List Nat} (b : List Nat) {k : Nat}
    (h : a.length = k) (off n : Nat) :
    slice (a ++ b) (k + off) n = slice b off n := by
  subst h; simp [slice, List.drop_append]

theorem slice_append_left {a : List Nat} (b : List Nat) {off n : Nat}
    (h : off + n ≤ a.length) : slice (a ++ b) off n = slice a off n := by
  unfold slice
  rw [List.drop_append_eq_append_drop]
  rw [List.take_append_of_le_length (by simp; omega)]

theorem slice_sub {l X : List Nat} {off m : Nat} (h : slice l off m = X)
    {a b : Nat} (hab : a + b ≤ m) : slice l (off + a) b = (X.drop a).take b := by
  subst h
  unfold slice
  rw [List.drop_take, List.take_take, ← List.drop_drop]
  congr 1
  omega

theorem lastN_append {x y : List Nat} {n : Nat} (h : n ≤ y.length) :
    lastN n (x ++ y) = lastN n y := by
  unfold lastN
  simp only [List.length_append]
  have : x.length + y.length - n = x.length + (y.length - n) := by omega
  rw [this, List.drop_append]

theorem lastN_exact {y : List Nat} (x : List Nat) (h : 0 < y.length) :
    lastN y.length (x ++ y) = y := by
  rw [lastN_append le_rfl]
  unfold lastN
  simp

theorem pad4_length (l : List Nat) : (pad4 l).length = 4 := by
  simp [pad4]; omega

theorem pad4_of_le {l : List Nat} (h : l.length ≤ 4) :
    pad4 l = l ++ List.replicate (4 - l.length) 0 := by
  rw [pad4, List.take_of_length_le h]

theorem rstrip_append_replicate (l : List Nat) (k : Nat)
    (h : ∀ b, l.getLast? = some b → isPadByte b = false) :
    rstrip (l ++ List.replicate k 0) = l := by
  unfold rstrip
  rw [List.reverse_append, List.reverse_replicate]
  have hz : List.dropWhile isPadByte (List.replicate k 0 ++ l.reverse)
      = List.dropWhile isPadByte l.reverse := by
    induction k with
    | zero => simp
    | succ k ih =>
      rw [List.replicate_succ, List.cons_append, List.dropWhile_cons]
      simpa [isPadByte] using ih
  rw [hz]
  rcases List.eq_nil_or_concat l with rfl | ⟨L, b, rfl⟩
  · simp
  · have hb : isPadByte b = false := by
      apply h
      simpa [List.concat_eq_append] using List.getLast?_concat L
    simp only [List.concat_eq_append, List.reverse_append, List.reverse_cons,
      List.reverse_nil, List.nil_append, List.singleton_append, List.dropWhile_cons, hb]
    simp

theorem pad4_ne_footer_head {n : List Nat} (h : wfName n) :
    pad4 n ≠ [0, 0, 0, 0] := by
  obtain ⟨h1, h2, _, h4⟩ := h
  rw [pad4_of_le h2]
  intro hc
  rcases List.eq_nil_or_concat n with rfl | ⟨L, b, rfl⟩
  · simp at h1
  · have hlast : (L ++ [b]).getLast? = some b := List.getLast?_concat L
    have hbne := h4 b (by simpa [List.concat_eq_append] using hlast)
    have hmem : b ∈ List.concat L b ++ List.replicate (4 - (List.concat L b).length) 0 := by
      simp [List.concat_eq_append]
    rw [hc] at hmem
    simp at hmem
    omega

theorem wfName_rstrip_pad4 {n : List Nat} (h : wfName n) : rstrip (pad4 n) = n := by
  obtain ⟨h1, h2, _, h4⟩ := h
  rw [pad4_of_le h2]
  apply rstrip_append_replicate
  intro b hb
  have := h4 b hb
  simp [isPadByte]
  omega

theorem takeWhile_append_zero {s : List Nat} (t : List Nat) (h : 0 ∉ s) :
    (s ++ 0 :: t).takeWhile (· ≠ 0) = s := by
  induction s with
  | nil => simp [List.takeWhile_cons]
  | cons a s ih =>
    have ha : a ≠ 0 := by intro hc; exact h (by simp [hc])
    have hs : 0 ∉ s := by intro hc; exact h (by simp [hc])
    simpa [List.takeWhile_cons, ha] using ih hs

theorem flatMap_toLE_length (k : Nat) (xs : List Nat) :
    (xs.flatMap (toLE k)).length = k * xs.length := by
  induction xs with
  | nil => simp
  | cons x xs ih => simp [List.flatMap_cons, ih, toLE_length]; ring

theorem chunksU2_flatMap {xs : List Nat} (h : ∀ x ∈ xs, x < 65536) :
    chunksU2 (xs.flatMap (toLE 2)) = xs := by
  induction xs with
  | nil => rfl
  | cons x xs ih =>
    have hx : x < 65536 := h x (by simp)
    have hrest : ∀ y ∈ xs, y < 65536 := fun y hy => h y (by simp [hy])
    have hd : x / 256 < 256 := by omega
    show chunksU2 (x % 256 :: x / 256 % 256 :: xs.flatMap (toLE 2)) = x :: xs
    rw [chunksU2, ih hrest, Nat.mod_eq_of_lt hd]
    congr 1
    omega

theorem chunksU4_flatMap {xs : List Nat} (h : ∀ x ∈ xs, x < 4294967296) :
    chunksU4 (xs.flatMap (toLE 4)) = xs := by
  induction xs with
  | nil => rfl
  | cons x xs ih =>
    have hx : x < 4294967296 := h x (by simp)
    have hrest : ∀ y ∈ xs, y < 4294967296 := fun y hy => h y (by simp [hy])
    show chunksU4 (x % 256 :: x / 256 % 256 :: x / 256 / 256 % 256 ::
      x / 256 / 256 / 256 % 256 :: xs.flatMap (toLE 4)) = x :: xs
    rw [chunksU4, ih hrest]
    congr 1
    omega

theorem chunksS2_flatMap {xs : List Int} (h : ∀ x ∈ xs, -32768 ≤ x ∧ x < 32768) :
    chunksS2 ((xs.map (fun i => (i % 65536).toNat)).flatMap (toLE 2)) = xs := by
  induction xs with
  | nil => rfl
  | cons x xs ih =>
    obtain ⟨hx1, hx2⟩ := h x (by simp)
    have hrest : ∀ y ∈ xs, -32768 ≤ y ∧ y < 32768 := fun y hy => h y (by simp [hy])
    have hn : (x % (65536 : Int)).toNat < 65536 := emod_toNat_lt x (by norm_num)
    have hexp : ((x :: xs).map (fun i => (i % 65536).toNat)).flatMap (toLE 2)
        = (x % 65536).toNat % 256 :: (x % 65536).toNat / 256 % 256 ::
          (xs.map (fun i => (i % 65536).toNat)).flatMap (toLE 2) := by
      simp [List.flatMap_cons, toLE]
    rw [hexp, chunksS2, ih hrest]
    have hsum : (x % (65536 : Int)).toNat % 256
        + 256 * ((x % (65536 : Int)).toNat / 256 % 256) = (x % (65536 : Int)).toNat := by
      omega
    rw [hsum]
    have := svalM_emod (M := 65536) x (by norm_num) (by omega) (by omega)
    congr 1

theorem chunksS4_flatMap {xs : List Int}
    (h : ∀ x ∈ xs, -2147483648 ≤ x ∧ x < 2147483648) :
    chunksS4 ((xs.map (fun i => (i % 4294967296).toNat)).flatMap (toLE 4)) = xs := by
  induction xs with
  | nil => rfl
  | cons x xs ih =>
    obtain ⟨hx1, hx2⟩ := h x (by simp)
    have hrest : ∀ y ∈ xs, -2147483648 ≤ y ∧ y < 2147483648 :=
      fun y hy => h y (by simp [hy])
    have hn : (x % (4294967296 : Int)).toNat < 4294967296 :=
      emod_toNat_lt x (by norm_num)
    have hexp : ((x :: xs).map (fun i => (i % 4294967296).toNat)).flatMap (toLE 4)
        = (x % 4294967296).toNat % 256 :: (x % 4294967296).toNat / 256 % 256 ::
          (x % 4294967296).toNat / 256 / 256 % 256 ::
          (x % 4294967296).toNat / 256 / 256 / 256 % 256 ::
          (xs.map (fun i => (i % 4294967296).toNat)).flatMap (toLE 4) := by
      simp [List.flatMap_cons, toLE]
    rw [hexp, chunksS4, ih hrest]
    have hsum : (x % (4294967296 : Int)).toNat % 256
        + 256 * ((x % (4294967296 : Int)).toNat / 256 % 256)
        + 65536 * ((x % (4294967296 : Int)).toNat / 256 / 256 % 256)
        + 16777216 * ((x % (4294967296 : Int)).toNat / 256 / 256 / 256 % 256)
        = (x % (4294967296 : Int)).toNat := by omega
    rw [hsum]
    have := svalM_emod (M := 4294967296) x (by norm_num) (by omega) (by omega)
    congr 1

theorem map_svalM_emod {xs : List Int} (h : ∀ x ∈ xs, -128 ≤ x ∧ x < 128) :
    (xs.map (fun i => (i % 256).toNat)).map (fun b => svalM b 256) = xs := by
  rw [List.map_map]
  conv_rhs => rw [← List.map_id xs]
  apply List.map_congr_left
  intro x hx
  obtain ⟨h1, h2⟩ := h x hx
  simpa using svalM_emod (M := 256) x (by norm_num) (by omega) (by omega)

theorem padTo4_eq (l : List Nat) :
    padTo4 l = l ++ List.replicate ((4 - l.length % 4) % 4) 0 := rfl

theorem padTo4_length_mod (l : List Nat) : (padTo4 l).length % 4 = 0 := by
  simp only [padTo4, List.length_append, List.length_replicate]
  omega

/-- A value that `encode_value` accepts and that survives padding decodes
back to itself from its padded wire bytes. -/
theorem decodeValue_encodeValue {v : NCPValue} (hv : wfValue v)
    (hps : padSafeValue v) {tid : Nat} {ev : List Nat}
    (he : encodeValue v = some (tid, ev)) :
    decodeValue tid (ev ++ List.replicate ((4 - (8 + ev.length) % 4) % 4) 0) = v := by
  cases v with
  | vInt i =>
    obtain ⟨hv1, hv2⟩ := hv
    by_cases h1 : -2147483648 ≤ i ∧ i < 2147483648
    · rw [encodeValue, if_pos h1] at he
      obtain ⟨rfl, rfl⟩ : 0 = tid ∧ toLE 4 (i % 4294967296).toNat = ev := by
        constructor <;> (injection he with h; injection h)
      have hlen : (toLE 4 (i % 4294967296).toNat).length = 4 := toLE_length 4 _
      have hpad : (4 - (8 + (toLE 4 (i % 4294967296).toNat).length % 4) % 4) % 4 = 0 := by
        rw [hlen]
      have hpad' : (4 - (8 + (toLE 4 (i % 4294967296).toNat).length) % 4) % 4 = 0 := by
        omega
      rw [hpad', List.replicate_zero, List.append_nil, decodeValue]
      have hn : (i % (4294967296 : Int)).toNat < 4294967296 :=
        emod_toNat_lt i (by norm_num)
      rw [sfromLE, hlen, fromLE_toLE (by norm_num at hn ⊢; exact hn)]
      norm_num
      exact svalM_emod (M := 4294967296) i (by norm_num) (by omega) (by omega)
    · rw [encodeValue, if_neg h1] at he
      rw [if_pos (by omega : i < 4294967296)] at he
      obtain ⟨rfl, rfl⟩ : 1 = tid ∧ toLE 4 i.toNat = ev := by
        constructor <;> (injection he with h; injection h)
      have hlen : (toLE 4 i.toNat).length = 4 := toLE_length 4 _
      have hpad' : (4 - (8 + (toLE 4 i.toNat).length) % 4) % 4 = 0 := by omega
      rw [hpad', List.replicate_zero, List.append_nil, decodeValue]
      have hi0 : 0 ≤ i := by omega
      have hn : i.toNat < 4294967296 := by omega
      rw [fromLE_toLE (by norm_num at hn ⊢; exact hn)]
      congr 1
      omega
  | vStr s =>
    rw [encodeValue] at he
    have hall : s.all (· < 256) = true := by
      rw [List.all_eq_true]; intro b hb; simpa using hv b hb
    rw [if_pos hall] at he
    obtain ⟨rfl, rfl⟩ : 2 = tid ∧ padTo4 (s ++ [0]) = ev := by
      constructor <;> (injection he with h; injection h)
    have hpad' : (4 - (8 + (padTo4 (s ++ [0])).length) % 4) % 4 = 0 := by
      have := padTo4_length_mod (s ++ [0])
      omega
    rw [hpad', List.replicate_zero, List.append_nil, decodeValue]
    rw [padTo4_eq, List.append_assoc, List.singleton_append]
    rw [takeWhile_append_zero _ hps]
  | vRaw b =>
    rw [encodeValue] at he
    obtain ⟨rfl, rfl⟩ : 128 = tid ∧ b = ev := by
      constructor <;> (injection he with h; injection h)
    have hpad' : (4 - (8 + b.length) % 4) % 4 = 0 := by
      have : b.length % 4 = 0 := hps
      omega
    rw [hpad', List.replicate_zero, List.append_nil, decodeValue]
  | vU8 xs =>
    rw [encodeValue] at he
    obtain ⟨rfl, rfl⟩ : 129 = tid ∧ xs = ev := by
      constructor <;> (injection he with h; injection h)
    have hpad' : (4 - (8 + xs.length) % 4) % 4 = 0 := by
      have : xs.length % 4 = 0 := hps
      omega
    rw [hpad', List.replicate_zero, List.append_nil, decodeValue]
  | vU16 xs =>
    rw [encodeValue] at he
    obtain ⟨rfl, rfl⟩ : 130 = tid ∧ xs.flatMap (toLE 2) = ev := by
      constructor <;> (injection he with h; injection h)
    have hlen : (xs.flatMap (toLE 2)).length = 2 * xs.length := flatMap_toLE_length 2 xs
    have hpad' : (4 - (8 + (xs.flatMap (toLE 2)).length) % 4) % 4 = 0 := by
      have : xs.length % 2 = 0 := hps
      omega
    rw [hpad', List.replicate_zero, List.append_nil, decodeValue, chunksU2_flatMap hv]
  | vU32 xs =>
    rw [encodeValue] at he
    obtain ⟨rfl, rfl⟩ : 131 = tid ∧ xs.flatMap (toLE 4) = ev := by
      constructor <;> (injection he with h; injection h)
    have hlen : (xs.flatMap (toLE 4)).length = 4 * xs.length := flatMap_toLE_length 4 xs
    have hpad' : (4 - (8 + (xs.flatMap (toLE 4)).length) % 4) % 4 = 0 := by omega
    rw [hpad', List.replicate_zero, List.append_nil, decodeValue, chunksU4_flatMap hv]
  | vI8 xs =>
    rw [encodeValue] at he
    obtain ⟨rfl, rfl⟩ : 132 = tid ∧ xs.map (fun i => (i % 256).toNat) = ev := by
      constructor <;> (injection he with h; injection h)
    have hpad' : (4 - (8 + (xs.map (fun i => (i % 256).toNat)).length) % 4) % 4 = 0 := by
      have h4 : xs.length % 4 = 0 := hps
      simp only [List.length_map]
      omega
    rw [hpad', List.replicate_zero, List.append_nil, decodeValue, map_svalM_emod hv]
  | vI16 xs =>
    rw [encodeValue] at he
    obtain ⟨rfl, rfl⟩ :
        133 = tid ∧ (xs.map (fun i => (i % 65536).toNat)).flatMap (toLE 2) = ev := by
      constructor <;> (injection he with h; injection h)
    have hlen : ((xs.map (fun i => (i % 65536).toNat)).flatMap (toLE 2)).length
        = 2 * xs.length := by
      rw [flatMap_toLE_length, List.length_map]
    have hpad' :
        (4 - (8 + ((xs.map (fun i => (i % 65536).toNat)).flatMap (toLE 2)).length) % 4) % 4
          = 0 := by
      have : xs.length % 2 = 0 := hps
      omega
    rw [hpad', List.replicate_zero, List.append_nil, decodeValue, chunksS2_flatMap hv]
  | vI32 xs =>
    rw [encodeValue] at he
    obtain ⟨rfl, rfl⟩ :
        134 = tid ∧ (xs.map (fun i => (i % 4294967296).toNat)).flatMap (toLE 4) = ev := by
      constructor <;> (injection he with h; injection h)
    have hlen : ((xs.map (fun i => (i % 4294967296).toNat)).flatMap (toLE 4)).length
        = 4 * xs.length := by
      rw [flatMap_toLE_length, List.length_map]
    have hpad' :
        (4 - (8 + ((xs.map (fun i => (i % 4294967296).toNat)).flatMap (toLE 4)).length) % 4) % 4
          = 0 := by omega
    rw [hpad', List.replicate_zero, List.append_nil, decodeValue, chunksS4_flatMap hv]
  | vUnknown t b => exact absurd he (by rw [encodeValue]; simp)

/-- Shape of a successfully encoded parameter. -/
theorem encodeParam_eq {p : NCPParam} {c : List Nat} (he : encodeParam p = some c) :
    ∃ tid ev, encodeValue p.value = some (tid, ev) ∧
      (8 + ev.length + (4 - (8 + ev.length) % 4) % 4) / 4 < 16777216 ∧
      c = pad4 p.name ++ toLE 3 ((8 + ev.length + (4 - (8 + ev.length) % 4) % 4) / 4)
        ++ [tid] ++ ev ++ List.replicate ((4 - (8 + ev.length) % 4) % 4) 0 := by
  unfold encodeParam at he
  cases hv : encodeValue p.value with
  | none => rw [hv] at he; simp at he
  | some tev =>
    obtain ⟨tid, ev⟩ := tev
    rw [hv] at he
    simp only [Option.some_bind] at he
    by_cases hw : (8 + ev.length + (4 - (8 + ev.length) % 4) % 4) / 4 < 16777216
    · refine ⟨tid, ev, rfl, hw, ?_⟩
      rw [if_pos hw] at he
      injection he with he
      rw [← he]
    · rw [if_neg hw] at he
      exact absurd he (by simp)

theorem encodeParam_length {p : NCPParam} {c : List Nat} {tid : Nat} {ev : List Nat}
    (hc : c = pad4 p.name ++ toLE 3 ((8 + ev.length + (4 - (8 + ev.length) % 4) % 4) / 4)
      ++ [tid] ++ ev ++ List.replicate ((4 - (8 + ev.length) % 4) % 4) 0) :
    c.length = 8 + ev.length + (4 - (8 + ev.length) % 4) % 4 := by
  subst hc
  simp [pad4_length, toLE_length]
  omega

/-- Shape of a successfully encoded parameter list. -/
theorem encodeParams_cons {p : NCPParam} {ps : List NCPParam} {B : List Nat}
    (he : encodeParams (p :: ps) = some B) :
    ∃ c B', encodeParam p = some c ∧ encodeParams ps = some B' ∧ B = c ++ B' := by
  unfold encodeParams at he
  cases h1 : encodeParam p with
  | none => rw [h1] at he; simp at he
  | some c =>
    rw [h1] at he
    cases h2 : encodeParams ps with
    | none => rw [h2] at he; simp at he
    | some B' =>
      rw [h2] at he
      simp only [Option.some_bind, Option.pure_def] at he
      injection he with he
      exact ⟨c, B', rfl, rfl, he.symm⟩

/-- Every encoded parameter chunk is 4-byte aligned and at least 8 bytes. -/
theorem encodeParam_length_facts {p : NCPParam} {c : List Nat}
    (he : encodeParam p = some c) : c.length % 4 = 0 ∧ 8 ≤ c.length := by
  obtain ⟨tid, ev, _, _, hc⟩ := encodeParam_eq he
  have := encodeParam_length hc
  omega

theorem encodeParams_length_facts {ps : List NCPParam} {B : List Nat}
    (he : encodeParams ps = some B) :
    B.length % 4 = 0 ∧ 8 * ps.length ≤ B.length := by
  induction ps generalizing B with
  | nil =>
    unfold encodeParams at he
    injection he with he
    subst he; simp
  | cons p ps ih =>
    obtain ⟨c, B', h1, h2, rfl⟩ := encodeParams_cons he
    obtain ⟨hm, hl⟩ := encodeParam_length_facts h1
    obtain ⟨hm', hl'⟩ := ih h2
    simp only [List.length_append, List.length_cons]
    omega

/-- Shape of a successfully encoded field. -/
theorem encodeField_eq {f : NCPField} {c : List Nat} (he : encodeField f = some c) :
    ∃ body, encodeParams f.params = some body ∧
      (12 + body.length) / 4 < 16777216 ∧ f.fid < 4294967296 ∧
      c = pad4 f.name ++ toLE 3 ((12 + body.length) / 4) ++ [0] ++ toLE 4 f.fid ++ body := by
  unfold encodeField at he
  cases hb : encodeParams f.params with
  | none => rw [hb] at he; simp at he
  | some body =>
    rw [hb] at he
    simp only [Option.some_bind] at he
    by_cases hw : (12 + body.length) / 4 < 16777216 ∧ f.fid < 4294967296
    · rw [if_pos hw] at he
      injection he with he
      exact ⟨body, rfl, hw.1, hw.2, by rw [← he]⟩
    · rw [if_neg hw] at he
      exact absurd he (by simp)

theorem encodeFields_cons {f : NCPField} {fs : List NCPField} {B : List Nat}
    (he : encodeFields (f :: fs) = some B) :
    ∃ c B', encodeField f = some c ∧ encodeFields fs = some B' ∧ B = c ++ B' := by
  unfold encodeFields at he
  cases h1 : encodeField f with
  | none => rw [h1] at he; simp at he
  | some c =>
    rw [h1] at he
    cases h2 : encodeFields fs with
    | none => rw [h2] at he; simp at he
    | some B' =>
      rw [h2] at he
      simp only [Option.some_bind, Option.pure_def] at he
      injection he with he
      exact ⟨c, B', rfl, rfl, he.symm⟩

theorem encodeField_length_facts {f : NCPField} {c : List Nat}
    (he : encodeField f = some c) : c.length % 4 = 0 ∧ 12 ≤ c.length := by
  obtain ⟨body, hb, _, _, hc⟩ := encodeField_eq he
  obtain ⟨hm, _⟩ := encodeParams_length_facts hb
  subst hc
  simp [pad4_length, toLE_length]
  omega

theorem encodeFields_length_facts {fs : List NCPField} {B : List Nat}
    (he : encodeFields fs = some B) :
    B.length % 4 = 0 ∧ 12 * fs.length ≤ B.length := by
  induction fs generalizing B with
  | nil =>
    unfold encodeFields at he
    injection he with he
    subst he; simp
  | cons f fs ih =>
    obtain ⟨c, B', h1, h2, rfl⟩ := encodeFields_cons he
    obtain ⟨hm, hl⟩ := encodeField_length_facts h1
    obtain ⟨hm', hl'⟩ := ih h2
    simp only [List.length_append, List.length_cons]
    omega

/-- Shape of a successfully encoded packet. -/
theorem encodePacket_eq {p : NCPPacket} {buf : List Nat}
    (he : encodePacket p = some buf) :
    ∃ fb, encodeFields p.fields = some fb ∧
      (32 + fb.length + 8) / 4 < 4294967296 ∧ p.pid < 4294967296 ∧
      p.time.sec < 4294967296 ∧ p.time.micro * 1000 < 4294967296 ∧
      buf = headerMagic ++ pad4 p.ptype ++ toLE 4 ((32 + fb.length + 8) / 4) ++
        toLE 4 p.pid ++ toLE 4 1 ++ toLE 4 p.time.sec ++ toLE 4 (p.time.micro * 1000) ++
        pad4 p.info ++ fb ++ footer8 := by
  unfold encodePacket at he
  cases hb : encodeFields p.fields with
  | none => rw [hb] at he; simp at he
  | some fb =>
    rw [hb] at he
    simp only [Option.some_bind] at he
    by_cases hw : (32 + fb.length + 8) / 4 < 4294967296 ∧ p.pid < 4294967296 ∧
        p.time.sec < 4294967296 ∧ p.time.micro * 1000 < 4294967296
    · rw [if_pos hw] at he
      injection he with he
      exact ⟨fb, rfl, hw.1, hw.2.1, hw.2.2.1, hw.2.2.2, by rw [← he]⟩
    · rw [if_neg hw] at he
      exact absurd he (by simp)

/-- Decoding one well-formed encoded parameter: the params loop consumes
exactly the parameter's chunk and appends its decoded image. -/
theorem decodeParams_step_one
    {p : NCPParam} {c : List Nat} (hp : wfParam p) (hc : encodeParam p = some c)
    {body : List Nat} {off : Nat} (plim : Int)
    (hs : slice body off c.length = c)
    (hle : (off : Int) + c.length ≤ plim)
    (fuel : Nat) (acc : List NCPParam) (warns : Nat) :
    decodeParams (fuel + 1) body off plim acc warns
      = decodeParams fuel body (off + c.length) plim (acc ++ [decParamOf p]) warns := by
  obtain ⟨tid, ev, hv, hw, hceq⟩ := encodeParam_eq hc
  have hclen := encodeParam_length hceq
  have hcge : 8 ≤ c.length := by omega
  have hsl : c.length ≤ body.length - off := by
    have := slice_length body off c.length
    rw [hs] at this
    omega
  have hoff_lt : (off : Int) < plim := by
    have : (0 : Int) < (c.length : Int) := by exact_mod_cast (by omega : 0 < c.length)
    omega
  have hceq' : c = pad4 p.name
      ++ (toLE 3 ((8 + ev.length + (4 - (8 + ev.length) % 4) % 4) / 4)
        ++ ([tid] ++ (ev ++ List.replicate ((4 - (8 + ev.length) % 4) % 4) 0))) := by
    rw [hceq]
    simp [List.append_assoc]
  have htake4 : c.take 4 = pad4 p.name := by
    conv_lhs => rw [hceq']
    exact List.take_left' (pad4_length p.name)
  have hdrop4 : c.drop 4 =
      toLE 3 ((8 + ev.length + (4 - (8 + ev.length) % 4) % 4) / 4)
        ++ ([tid] ++ (ev ++ List.replicate ((4 - (8 + ev.length) % 4) % 4) 0)) := by
    conv_lhs => rw [hceq']
    exact List.drop_left' (pad4_length p.name)
  have hdrop7 : c.drop 7 =
      [tid] ++ (ev ++ List.replicate ((4 - (8 + ev.length) % 4) % 4) 0) := by
    have h73 : c.drop 7 = (c.drop 4).drop 3 := by rw [List.drop_drop]
    rw [h73, hdrop4]
    exact List.drop_left' (toLE_length 3 _)
  have hdrop8 : c.drop 8 = ev ++ List.replicate ((4 - (8 + ev.length) % 4) % 4) 0 := by
    have : c.drop 8 = (c.drop 7).drop 1 := by rw [List.drop_drop]
    rw [this, hdrop7]
    rfl
  have hname : slice body off 4 = pad4 p.name := by
    have h04 : (4 : Nat) ≤ c.length := by omega
    have := slice_sub hs (a := 0) (b := 4) (by omega)
    simpa [htake4] using this
  have hfoot : ¬ (slice body off 8 = footer8) := by
    intro hcon
    have h08 := slice_sub hs (a := 0) (b := 8) (by omega)
    simp only [Nat.add_zero, List.drop_zero] at h08
    have : (slice body off 8).take 4 = c.take 4 := by
      rw [h08, List.take_take]
      norm_num
    rw [hcon, htake4] at this
    exact pad4_ne_footer_head hp.1 (by simpa [footer8] using this.symm)
  have hsizeslice : slice body (off + 4) 3
      = toLE 3 ((8 + ev.length + (4 - (8 + ev.length) % 4) % 4) / 4) := by
    have := slice_sub hs (a := 4) (b := 3) (by omega)
    rw [this, hdrop4]
    exact List.take_left' (toLE_length 3 _)
  have hsize' : fromLE (slice body (off + 4) 3) * 4 = c.length := by
    rw [hsizeslice, fromLE_toLE (by norm_num; omega)]
    omega
  have htidslice : slice body (off + 7) 1 = [tid] := by
    have := slice_sub hs (a := 7) (b := 1) (by omega)
    rw [this, hdrop7]
    rfl
  have hvalslice : slice body (off + 8) (c.length - 8)
      = ev ++ List.replicate ((4 - (8 + ev.length) % 4) % 4) 0 := by
    have := slice_sub hs (a := 8) (b := c.length - 8) (by omega)
    rw [this, hdrop8]
    apply List.take_of_length_le
    simp
    omega
  have hdp : decParamOf p
      = ⟨p.name, decodeValue tid (ev ++ List.replicate ((4 - (8 + ev.length) % 4) % 4) 0)⟩ := by
    rw [decParamOf, hv]
  conv_lhs => rw [decodeParams]
  rw [if_pos hoff_lt, if_neg hfoot, if_neg (by omega : ¬ (body.length < off + 8))]
  simp only [hsize', hname, htidslice, fromLE_singleton, hvalslice]
  rw [if_neg (by omega : ¬ ((off : Int) + (c.length : Nat) > plim))]
  rw [hdp, wfName_rstrip_pad4 hp.1]

/-- The params loop exits as soon as the offset reaches the limit. -/
theorem decodeParams_exit {body : List Nat} {off : Nat} {plim : Int}
    (h : ¬ ((off : Int) < plim)) (fuel : Nat) (acc : List NCPParam) (warns : Nat) :
    decodeParams fuel body off plim acc warns = .ok (acc, off, warns) := by
  cases fuel <;> simp [decodeParams, h]

/-- An embedded `00 00 00 00 AA BB CC DD` inside the param area is skipped
with one warning. -/
theorem decodeParams_step_footer {body : List Nat} {off : Nat} (plim : Int)
    (hs : slice body off 8 = footer8) (h : (off : Int) < plim)
    (fuel : Nat) (acc : List NCPParam) (warns : Nat) :
    decodeParams (fuel + 1) body off plim acc warns
      = decodeParams fuel body (off + 8) plim acc (warns + 1) := by
  conv_lhs => rw [decodeParams]
  rw [if_pos h, if_pos hs]

/-- Decoding a whole well-formed encoded parameter list laid out at `off`:
the loop consumes exactly its bytes and appends the decoded images. -/
theorem decodeParams_step_list
    {ps : List NCPParam} {B : List Nat} (hps : ∀ p ∈ ps, wfParam p)
    (he : encodeParams ps = some B) {body : List Nat} {off : Nat} (plim : Int)
    (hs : slice body off B.length = B)
    (hle : (off : Int) + B.length ≤ plim)
    (fuel : Nat) (hfuel : ps.length ≤ fuel) (acc : List NCPParam) (warns : Nat) :
    decodeParams fuel body off plim acc warns
      = decodeParams (fuel - ps.length) body (off + B.length) plim
          (acc ++ ps.map decParamOf) warns := by
  induction ps generalizing B off fuel acc with
  | nil =>
    unfold encodeParams at he
    injection he with he
    subst he
    simp
  | cons p ps ih =>
    obtain ⟨c, B', h1, h2, rfl⟩ := encodeParams_cons he
    obtain ⟨fuel, rfl⟩ : ∃ f, fuel = f + 1 := by
      cases fuel with
      | zero => simp at hfuel
      | succ f => exact ⟨f, rfl⟩
    have hlen : (c ++ B').length = c.length + B'.length := List.length_append c B'
    have hsc : slice body off c.length = c := by
      have := slice_sub hs (a := 0) (b := c.length) (by omega)
      simpa [List.take_left' (rfl : c.length = c.length)] using this
    have hstep := decodeParams_step_one (hps p (by simp)) h1 plim hsc
      (by push_cast at hle ⊢; omega) fuel acc warns
    rw [hstep]
    have hsB' : slice body (off + c.length) B'.length = B' := by
      have := slice_sub hs (a := c.length) (b := B'.length) (by omega)
      rw [this, List.drop_left]
      exact List.take_of_length_le le_rfl
    have hfuel' : ps.length ≤ fuel := by
      simp only [List.length_cons] at hfuel
      omega
    have hrest := ih (fun q hq => hps q (by simp [hq])) h2 hsB'
      (by push_cast at hle ⊢; omega) fuel hfuel'
      (acc ++ [decParamOf p])
    rw [hrest]
    have e1 : fuel + 1 - (p :: ps).length = fuel - ps.length := by
      simp only [List.length_cons]
      omega
    have e2 : off + (c ++ B').length = off + c.length + B'.length := by
      simp only [List.length_append]
      omega
    have e3 : acc ++ (p :: ps).map decParamOf
        = acc ++ [decParamOf p] ++ ps.map decParamOf := by
      simp
    rw [e1, e2, e3]

/-- The fields loop exits as soon as the offset reaches the limit. -/
theorem decodeFields_exit {body : List Nat} {off : Nat} {flim : Int}
    (h : ¬ ((off : Int) < flim)) (fuel : Nat) (acc : List NCPField) (warns : Nat) :
    decodeFields fuel body off flim acc warns = .ok (acc, off, warns) := by
  cases fuel <;> simp [decodeFields, h]

/-- Decoding one well-formed encoded field: the fields loop consumes
exactly the field's chunk and appends its decoded image. -/
theorem decodeFields_step_one
    {f : NCPField} {c : List Nat} (hf : wfField f) (hc : encodeField f = some c)
    {body : List Nat} {off : Nat} (flim : Int)
    (hs : slice body off c.length = c)
    (hle : (off : Int) + c.length ≤ flim)
    (fuel : Nat) (acc : List NCPField) (warns : Nat) :
    decodeFields (fuel + 1) body off flim acc warns
      = decodeFields fuel body (off + c.length) flim (acc ++ [decFieldOf f]) warns := by
  obtain ⟨pbody, hpb, hw, hfid, hceq⟩ := encodeField_eq hc
  obtain ⟨hpbmod, hpbcnt⟩ := encodeParams_length_facts hpb
  have hclen : c.length = 12 + pbody.length := by
    rw [hceq]
    simp [pad4_length, toLE_length]
    omega
  have hfw4 : ((12 + pbody.length) / 4) * 4 = c.length := by omega
  have hsl : c.length ≤ body.length - off := by
    have := slice_length body off c.length
    rw [hs] at this
    omega
  have hoff_lt : (off : Int) < flim := by
    have : (0 : Int) < (c.length : Int) := by exact_mod_cast (by omega : 0 < c.length)
    omega
  have hceq' : c = pad4 f.name
      ++ (toLE 3 ((12 + pbody.length) / 4)
        ++ ([0] ++ (toLE 4 f.fid ++ pbody))) := by
    rw [hceq]
    simp [List.append_assoc]
  have hdrop4 : c.drop 4 = toLE 3 ((12 + pbody.length) / 4)
      ++ ([0] ++ (toLE 4 f.fid ++ pbody)) := by
    conv_lhs => rw [hceq']
    exact List.drop_left' (pad4_length f.name)
  have hdrop8 : c.drop 8 = toLE 4 f.fid ++ pbody := by
    have h84 : c.drop 8 = ((c.drop 4).drop 3).drop 1 := by
      rw [List.drop_drop, List.drop_drop]
    rw [h84, hdrop4, List.drop_left' (toLE_length 3 _)]
    rfl
  have hdrop12 : c.drop 12 = pbody := by
    have h124 : c.drop 12 = (c.drop 8).drop 4 := by rw [List.drop_drop]
    rw [h124, hdrop8]
    exact List.drop_left' (toLE_length 4 _)
  have hname : slice body off 4 = pad4 f.name := by
    have := slice_sub hs (a := 0) (b := 4) (by omega)
    simp only [Nat.add_zero, List.drop_zero] at this
    rw [this]
    conv_lhs => rw [hceq']
    exact List.take_left' (pad4_length f.name)
  have hsizeslice : slice body (off + 4) 3 = toLE 3 ((12 + pbody.length) / 4) := by
    have := slice_sub hs (a := 4) (b := 3) (by omega)
    rw [this, hdrop4]
    exact List.take_left' (toLE_length 3 _)
  have hfidslice : slice body (off + 8) 4 = toLE 4 f.fid := by
    have := slice_sub hs (a := 8) (b := 4) (by omega)
    rw [this, hdrop8]
    exact List.take_left' (toLE_length 4 _)
  have hpslice : slice body (off + 12) pbody.length = pbody := by
    have := slice_sub hs (a := 12) (b := pbody.length) (by omega)
    rw [this, hdrop12]
    exact List.take_of_length_le le_rfl
  have hsize' : fromLE (slice body (off + 4) 3) = (12 + pbody.length) / 4 := by
    rw [hsizeslice, fromLE_toLE (by norm_num; omega)]
  have hfid' : fromLE (slice body (off + 8) 4) = f.fid := by
    rw [hfidslice, fromLE_toLE (by norm_num; omega)]
  have hparams := decodeParams_step_list
    hf.2.2 hpb ((off : Int) + (((12 + pbody.length) / 4 * 4 : Nat) : Int)) hpslice
    (by rw [hfw4]; push_cast; omega)
    (body.length + 1)
    (by omega)
    [] warns
  conv_lhs => rw [decodeFields]
  rw [if_pos hoff_lt, if_neg (by omega : ¬ (body.length < off + 12))]
  simp only [hsize', hfid', hname]
  rw [hparams]
  rw [decodeParams_exit (by rw [hfw4]; push_cast; omega) _ _ _]
  rw [wfName_rstrip_pad4 hf.1]
  have hoffc : off + 12 + pbody.length = off + c.length := by omega
  rw [hoffc]
  rfl

/-- Decoding a whole well-formed encoded field list laid out at `off`. -/
theorem decodeFields_step_list
    {fs : List NCPField} {B : List Nat} (hfs : ∀ f ∈ fs, wfField f)
    (he : encodeFields fs = some B) {body : List Nat} {off : Nat} (flim : Int)
    (hs : slice body off B.length = B)
    (hle : (off : Int) + B.length ≤ flim)
    (fuel : Nat) (hfuel : fs.length ≤ fuel) (acc : List NCPField) (warns : Nat) :
    decodeFields fuel body off flim acc warns
      = decodeFields (fuel - fs.length) body (off + B.length) flim
          (acc ++ fs.map decFieldOf) warns := by
  induction fs generalizing B off fuel acc with
  | nil =>
    unfold encodeFields at he
    injection he with he
    subst he
    simp
  | cons f fs ih =>
    obtain ⟨c, B', h1, h2, rfl⟩ := encodeFields_cons he
    obtain ⟨fuel, rfl⟩ : ∃ g, fuel = g + 1 := by
      cases fuel with
      | zero => simp at hfuel
      | succ g => exact ⟨g, rfl⟩
    have hlen : (c ++ B').length = c.length + B'.length := List.length_append c B'
    have hsc : slice body off c.length = c := by
      have := slice_sub hs (a := 0) (b := c.length) (by omega)
      simpa [List.take_left' (rfl : c.length = c.length)] using this
    have hstep := decodeFields_step_one (hfs f (by simp)) h1 flim hsc
      (by push_cast at hle ⊢; omega) fuel acc warns
    rw [hstep]
    have hsB' : slice body (off + c.length) B'.length = B' := by
      have := slice_sub hs (a := c.length) (b := B'.length) (by omega)
      rw [this, List.drop_left]
      exact List.take_of_length_le le_rfl
    have hfuel' : fs.length ≤ fuel := by
      simp only [List.length_cons] at hfuel
      omega
    have hrest := ih (fun q hq => hfs q (by simp [hq])) h2 hsB'
      (by push_cast at hle ⊢; omega) fuel hfuel'
      (acc ++ [decFieldOf f])
    rw [hrest]
    have e1 : fuel + 1 - (f :: fs).length = fuel - fs.length := by
      simp only [List.length_cons]
      omega
    have e2 : off + (c ++ B').length = off + c.length + B'.length := by
      simp only [List.length_append]
      omega
    have e3 : acc ++ (f :: fs).map decFieldOf
        = acc ++ [decFieldOf f] ++ fs.map decFieldOf := by
      simp
    rw [e1, e2, e3]

theorem pad4_of_length_eq {l : List Nat} (h : l.length = 4) : pad4 l = l := by
  rw [pad4, h, List.take_of_length_le (by omega)]
  simp

/-- Decoding an encoded structurally well-formed packet yields its decode
image with no warnings. -/
theorem decodePacket_encodePacket {p : NCPPacket} {buf : List Nat}
    (hp : wfPacket p) (he : encodePacket p = some buf) :
    decodePacket buf = .ok (decPacketOf p, 0) := by
  obtain ⟨hty, hpid, hsec, hmic, hinfo4, _, hfwf⟩ := hp
  obtain ⟨fb, hfb, hw, hpid', hsec', hmic', hbeq⟩ := encodePacket_eq he
  obtain ⟨hfbmod, hfbcnt⟩ := encodeFields_length_facts hfb
  have hbeq' : buf = headerMagic ++ (pad4 p.ptype
      ++ (toLE 4 ((32 + fb.length + 8) / 4)
      ++ (toLE 4 p.pid ++ (toLE 4 1 ++ (toLE 4 p.time.sec
      ++ (toLE 4 (p.time.micro * 1000) ++ (pad4 p.info ++ (fb ++ footer8)))))))) := by
    rw [hbeq]
    simp [List.append_assoc]
  have hmag4 : headerMagic.length = 4 := rfl
  have hd4 : buf.drop 4 = pad4 p.ptype
      ++ (toLE 4 ((32 + fb.length + 8) / 4)
      ++ (toLE 4 p.pid ++ (toLE 4 1 ++ (toLE 4 p.time.sec
      ++ (toLE 4 (p.time.micro * 1000) ++ (pad4 p.info ++ (fb ++ footer8))))))) := by
    conv_lhs => rw [hbeq']
    exact List.drop_left' hmag4
  have hd8 : buf.drop 8 = toLE 4 ((32 + fb.length + 8) / 4)
      ++ (toLE 4 p.pid ++ (toLE 4 1 ++ (toLE 4 p.time.sec
      ++ (toLE 4 (p.time.micro * 1000) ++ (pad4 p.info ++ (fb ++ footer8)))))) := by
    have h2 : buf.drop 8 = (buf.drop 4).drop 4 := by rw [List.drop_drop]
    rw [h2, hd4]
    exact List.drop_left' (pad4_length _)
  have hd12 : buf.drop 12 = toLE 4 p.pid ++ (toLE 4 1 ++ (toLE 4 p.time.sec
      ++ (toLE 4 (p.time.micro * 1000) ++ (pad4 p.info ++ (fb ++ footer8))))) := by
    have h2 : buf.drop 12 = (buf.drop 8).drop 4 := by rw [List.drop_drop]
    rw [h2, hd8]
    exact List.drop_left' (toLE_length 4 _)
  have hd16 : buf.drop 16 = toLE 4 1 ++ (toLE 4 p.time.sec
      ++ (toLE 4 (p.time.micro * 1000) ++ (pad4 p.info ++ (fb ++ footer8)))) := by
    have h2 : buf.drop 16 = (buf.drop 12).drop 4 := by rw [List.drop_drop]
    rw [h2, hd12]
    exact List.drop_left' (toLE_length 4 _)
  have hd20 : buf.drop 20 = toLE 4 p.time.sec
      ++ (toLE 4 (p.time.micro * 1000) ++ (pad4 p.info ++ (fb ++ footer8))) := by
    have h2 : buf.drop 20 = (buf.drop 16).drop 4 := by rw [List.drop_drop]
    rw [h2, hd16]
    exact List.drop_left' (toLE_length 4 _)
  have hd24 : buf.drop 24
      = toLE 4 (p.time.micro * 1000) ++ (pad4 p.info ++ (fb ++ footer8)) := by
    have h2 : buf.drop 24 = (buf.drop 20).drop 4 := by rw [List.drop_drop]
    rw [h2, hd20]
    exact List.drop_left' (toLE_length 4 _)
  have hd28 : buf.drop 28 = pad4 p.info ++ (fb ++ footer8) := by
    have h2 : buf.drop 28 = (buf.drop 24).drop 4 := by rw [List.drop_drop]
    rw [h2, hd24]
    exact List.drop_left' (toLE_length 4 _)
  have hd32 : buf.drop 32 = fb ++ footer8 := by
    have h2 : buf.drop 32 = (buf.drop 28).drop 4 := by rw [List.drop_drop]
    rw [h2, hd28]
    exact List.drop_left' (pad4_length _)
  have hbuflen : buf.length = 40 + fb.length := by
    rw [hbeq']
    simp [pad4_length, toLE_length, footer8]
    omega
  have hs0 : slice buf 0 4 = headerMagic := by
    show (buf.drop 0).take 4 = headerMagic
    rw [List.drop_zero]
    conv_lhs => rw [hbeq']
    exact List.take_left' hmag4
  have hs4 : slice buf 4 4 = pad4 p.ptype := by
    show (buf.drop 4).take 4 = pad4 p.ptype
    rw [hd4]
    exact List.take_left' (pad4_length _)
  have hs8 : slice buf 8 4 = toLE 4 ((32 + fb.length + 8) / 4) := by
    show (buf.drop 8).take 4 = _
    rw [hd8]
    exact List.take_left' (toLE_length 4 _)
  have hs12 : slice buf 12 4 = toLE 4 p.pid := by
    show (buf.drop 12).take 4 = _
    rw [hd12]
    exact List.take_left' (toLE_length 4 _)
  have hs20 : slice buf 20 4 = toLE 4 p.time.sec := by
    show (buf.drop 20).take 4 = _
    rw [hd20]
    exact List.take_left' (toLE_length 4 _)
  have hs24 : slice buf 24 4 = toLE 4 (p.time.micro * 1000) := by
    show (buf.drop 24).take 4 = _
    rw [hd24]
    exact List.take_left' (toLE_length 4 _)
  have hs28 : slice buf 28 4 = pad4 p.info := by
    show (buf.drop 28).take 4 = _
    rw [hd28]
    exact List.take_left' (pad4_length _)
  have hw4 : ((32 + fb.length + 8) / 4) * 4 = 40 + fb.length := by omega
  have hfrom8 : fromLE (slice buf 8 4) = (32 + fb.length + 8) / 4 := by
    rw [hs8, fromLE_toLE (by norm_num; omega)]
  have hfoot : lastN 4 (buf.drop 32) = footerMagic := by
    rw [hd32, lastN_append (by simp [footer8] : 4 ≤ footer8.length)]
    rfl
  have hflim : ((fromLE (slice buf 8 4) * 4 : Nat) - 32 - 8 : Int)
      = (fb.length : Int) := by
    rw [hfrom8]
    push_cast [hw4]
    omega
  have hsfb : slice (buf.drop 32) 0 fb.length = fb := by
    show ((buf.drop 32).drop 0).take fb.length = fb
    rw [List.drop_zero, hd32]
    exact List.take_left' rfl
  have hfields := decodeFields_step_list
    hfwf hfb ((fromLE (slice buf 8 4) * 4 : Nat) - 32 - 8 : Int) hsfb
    (by rw [hflim]; push_cast; omega)
    ((buf.drop 32).length + 1)
    (by simp [hbuflen]; omega)
    [] 0
  rw [decodePacket, if_neg (by omega : ¬ (buf.length < 32)),
    if_neg (show ¬ (slice buf 0 4 ≠ headerMagic) by rw [hs0]; simp),
    if_neg (show ¬ (lastN 4 (buf.drop 32) ≠ footerMagic) by rw [hfoot]; simp)]
  rw [hfields]
  rw [decodeFields_exit (by rw [hflim]; push_cast; omega) _ _ _]
  dsimp only
  rw [if_neg (by rw [hflim]; push_cast; omega)]
  have htime : unixToTime (fromLE (slice buf 20 4)) (fromLE (slice buf 24 4))
      = p.time := by
    rw [hs20, hs24, fromLE_toLE (by norm_num; omega), fromLE_toLE (by norm_num; omega)]
    cases p.time with
    | mk s m =>
      simp only [unixToTime]
      congr 1
      omega
  rw [hs12, hs4, hs28, htime, fromLE_toLE (by norm_num; omega)]
  rw [wfName_rstrip_pad4 hty, pad4_of_length_eq hinfo4]
  rfl

theorem encodeValue_isSome {v : NCPValue} (hv : wfValue v) :
    ∃ tid ev, encodeValue v = some (tid, ev) := by
  cases v with
  | vInt i =>
    obtain ⟨h1, h2⟩ := hv
    by_cases hs : -2147483648 ≤ i ∧ i < 2147483648
    · exact ⟨_, _, by rw [encodeValue, if_pos hs]⟩
    · exact ⟨_, _, by rw [encodeValue, if_neg hs, if_pos h2]⟩
  | vStr s =>
    refine ⟨2, padTo4 (s ++ [0]), ?_⟩
    rw [encodeValue, if_pos]
    rw [List.all_eq_true]
    intro b hb
    simpa using hv b hb
  | vRaw b => exact ⟨_, _, rfl⟩
  | vU8 xs => exact ⟨_, _, rfl⟩
  | vU16 xs => exact ⟨_, _, rfl⟩
  | vU32 xs => exact ⟨_, _, rfl⟩
  | vI8 xs => exact ⟨_, _, rfl⟩
  | vI16 xs => exact ⟨_, _, rfl⟩
  | vI32 xs => exact ⟨_, _, rfl⟩
  | vUnknown t b => exact absurd hv (by simp [wfValue])

/-- A pad-safe well-formed parameter is a fixed point of the decode
image. -/
theorem decParamOf_eq_self {p : NCPParam} (hv : wfValue p.value)
    (hps : padSafeValue p.value) : decParamOf p = p := by
  obtain ⟨tid, ev, he⟩ := encodeValue_isSome hv
  rw [decParamOf, he]
  dsimp only
  rw [decodeValue_encodeValue hv hps he]

theorem decFieldOf_eq_self {f : NCPField}
    (h : ∀ prm ∈ f.params, wfValue prm.value ∧ padSafeValue prm.value) :
    decFieldOf f = f := by
  rw [decFieldOf]
  cases f with
  | mk n i ps =>
    simp only [NCPField.mk.injEq, true_and]
    rw [show List.map decParamOf ps = List.map id ps from
      List.map_congr_left fun q hq => by
        rw [decParamOf_eq_self (h q hq).1 (h q hq).2]; rfl]
    simp

theorem decPacketOf_eq_self {p : NCPPacket} (hp : wfPacketRT p) :
    decPacketOf p = p := by
  rw [decPacketOf]
  cases p with
  | mk ty pid tm info fs =>
    simp only [NCPPacket.mk.injEq, true_and]
    rw [show List.map decFieldOf fs = List.map id fs from
      List.map_congr_left fun f hf => by
        rw [decFieldOf_eq_self fun q hq =>
          ⟨((hp.1.2.2.2.2.2.2 f hf).2.2 q hq).2, hp.2 f hf q hq⟩]
        rfl]
    simp

/-- Shape of a successfully built glitched field. -/
theorem glitchField_eq {name : List Nat} {fid : Nat} {ps1 ps2 : List NCPParam}
    {c : List Nat} (he : glitchField name fid ps1 ps2 = some c) :
    ∃ B1 B2, encodeParams ps1 = some B1 ∧ encodeParams ps2 = some B2 ∧
      (12 + (B1 ++ footer8 ++ B2).length) / 4 < 16777216 ∧ fid < 4294967296 ∧
      c = pad4 name ++ toLE 3 ((12 + (B1 ++ footer8 ++ B2).length) / 4) ++ [0]
        ++ toLE 4 fid ++ (B1 ++ footer8 ++ B2) := by
  unfold glitchField at he
  cases h1 : encodeParams ps1 with
  | none => rw [h1] at he; simp at he
  | some B1 =>
    rw [h1] at he
    cases h2 : encodeParams ps2 with
    | none => rw [h2] at he; simp at he
    | some B2 =>
      rw [h2] at he
      simp only [Option.some_bind, Option.pure_def] at he
      by_cases hw : (12 + (B1 ++ footer8 ++ B2).length) / 4 < 16777216 ∧
          fid < 4294967296
      · rw [if_pos hw] at he
        injection he with he
        exact ⟨B1, B2, rfl, rfl, hw.1, hw.2, by rw [← he]⟩
      · rw [if_neg hw] at he
        exact absurd he (by simp)

/-- Shape of a successfully built glitched packet. -/
theorem glitchEncodePacket_eq {pt : List Nat} {pid : Nat} {time : NCPTime}
    {info : List Nat} {fs1 : List NCPField} {f : NCPField}
    {ps1 ps2 : List NCPParam} {fs2 : List NCPField} {buf : List Nat}
    (he : glitchEncodePacket pt pid time info fs1 f ps1 ps2 fs2 = some buf) :
    ∃ b1 gb b2, encodeFields fs1 = some b1 ∧ glitchField f.name f.fid ps1 ps2 = some gb ∧
      encodeFields fs2 = some b2 ∧
      (32 + (b1 ++ gb ++ b2).length + 8) / 4 < 4294967296 ∧ pid < 4294967296 ∧
      time.sec < 4294967296 ∧ time.micro * 1000 < 4294967296 ∧
      buf = headerMagic ++ pad4 pt ++ toLE 4 ((32 + (b1 ++ gb ++ b2).length + 8) / 4) ++
        toLE 4 pid ++ toLE 4 1 ++ toLE 4 time.sec ++ toLE 4 (time.micro * 1000) ++
        pad4 info ++ (b1 ++ gb ++ b2) ++ footer8 := by
  unfold glitchEncodePacket at he
  cases h1 : encodeFields fs1 with
  | none => rw [h1] at he; simp at he
  | some b1 =>
    rw [h1] at he
    cases hg : glitchField f.name f.fid ps1 ps2 with
    | none => rw [hg] at he; simp at he
    | some gb =>
      rw [hg] at he
      cases h2 : encodeFields fs2 with
      | none => rw [h2] at he; simp at he
      | some b2 =>
        rw [h2] at he
        simp only [Option.some_bind, Option.pure_def] at he
        by_cases hw : (32 + (b1 ++ gb ++ b2).length + 8) / 4 < 4294967296 ∧
            pid < 4294967296 ∧ time.sec < 4294967296 ∧ time.micro * 1000 < 4294967296
        · rw [if_pos hw] at he
          injection he with he
          exact ⟨b1, gb, b2, rfl, rfl, rfl, hw.1, hw.2.1, hw.2.2.1, hw.2.2.2, by rw [← he]⟩
        · rw [if_neg hw] at he
          exact absurd he (by simp)

/-- Decoding one glitched field: the fields loop consumes the field's
chunk, skips the embedded footer with exactly one extra warning, and
appends the same decoded field image. -/
theorem decodeFields_step_glitch
    {f : NCPField} {ps1 ps2 : List NCPParam} (hsplit : f.params = ps1 ++ ps2)
    {c : List Nat} (hf : wfField f) (hc : glitchField f.name f.fid ps1 ps2 = some c)
    {body : List Nat} {off : Nat} (flim : Int)
    (hs : slice body off c.length = c)
    (hle : (off : Int) + c.length ≤ flim)
    (fuel : Nat) (acc : List NCPField) (warns : Nat) :
    decodeFields (fuel + 1) body off flim acc warns
      = decodeFields fuel body (off + c.length) flim
          (acc ++ [decFieldOf f]) (warns + 1) := by
  obtain ⟨B1, B2, hp1, hp2, hw, hfid, hceq⟩ := glitchField_eq hc
  obtain ⟨hm1, hc1⟩ := encodeParams_length_facts hp1
  obtain ⟨hm2, hc2⟩ := encodeParams_length_facts hp2
  have hflen : (B1 ++ footer8 ++ B2).length = B1.length + 8 + B2.length := by
    simp [footer8_length]
    omega
  have hclen : c.length = 12 + (B1.length + 8 + B2.length) := by
    rw [hceq]
    simp [pad4_length, toLE_length, footer8_length]
    omega
  have hw' : (12 + (B1.length + 8 + B2.length)) / 4 < 16777216 := by
    rw [hflen] at hw
    exact hw
  have hfw4 : ((12 + (B1 ++ footer8 ++ B2).length) / 4) * 4 = c.length := by
    rw [hflen]
    omega
  have hsl : c.length ≤ body.length - off := by
    have := slice_length body off c.length
    rw [hs] at this
    omega
  have hoff_lt : (off : Int) < flim := by
    have : (0 : Int) < (c.length : Int) := by exact_mod_cast (by omega : 0 < c.length)
    omega
  have hceq' : c = pad4 f.name
      ++ (toLE 3 ((12 + (B1 ++ footer8 ++ B2).length) / 4)
        ++ ([0] ++ (toLE 4 f.fid ++ (B1 ++ (footer8 ++ B2))))) := by
    rw [hceq]
    simp [List.append_assoc]
  have hdrop4 : c.drop 4 = toLE 3 ((12 + (B1 ++ footer8 ++ B2).length) / 4)
      ++ ([0] ++ (toLE 4 f.fid ++ (B1 ++ (footer8 ++ B2)))) := by
    conv_lhs => rw [hceq']
    exact List.drop_left' (pad4_length f.name)
  have hdrop8 : c.drop 8 = toLE 4 f.fid ++ (B1 ++ (footer8 ++ B2)) := by
    have h84 : c.drop 8 = ((c.drop 4).drop 3).drop 1 := by
      rw [List.drop_drop, List.drop_drop]
    rw [h84, hdrop4, List.drop_left' (toLE_length 3 _)]
    rfl
  have hdrop12 : c.drop 12 = B1 ++ (footer8 ++ B2) := by
    have h124 : c.drop 12 = (c.drop 8).drop 4 := by rw [List.drop_drop]
    rw [h124, hdrop8]
    exact List.drop_left' (toLE_length 4 _)
  have hname : slice body off 4 = pad4 f.name := by
    have := slice_sub hs (a := 0) (b := 4) (by omega)
    simp only [Nat.add_zero, List.drop_zero] at this
    rw [this]
    conv_lhs => rw [hceq']
    exact List.take_left' (pad4_length f.name)
  have hsizeslice : slice body (off + 4) 3
      = toLE 3 ((12 + (B1 ++ footer8 ++ B2).length) / 4) := by
    have := slice_sub hs (a := 4) (b := 3) (by omega)
    rw [this, hdrop4]
    exact List.take_left' (toLE_length 3 _)
  have hfidslice : slice body (off + 8) 4 = toLE 4 f.fid := by
    have := slice_sub hs (a := 8) (b := 4) (by omega)
    rw [this, hdrop8]
    exact List.take_left' (toLE_length 4 _)
  have hsize' : fromLE (slice body (off + 4) 3)
      = (12 + (B1 ++ footer8 ++ B2).length) / 4 := by
    rw [hsizeslice, fromLE_toLE (by rw [hflen]; norm_num; omega)]
  have hfid' : fromLE (slice body (off + 8) 4) = f.fid := by
    rw [hfidslice, fromLE_toLE (by norm_num; omega)]
  have hB1slice : slice body (off + 12) B1.length = B1 := by
    have := slice_sub hs (a := 12) (b := B1.length) (by omega)
    rw [this, hdrop12]
    exact List.take_left' rfl
  have hfootslice : slice body (off + 12 + B1.length) 8 = footer8 := by
    have h12 : off + 12 + B1.length = off + (12 + B1.length) := by omega
    have := slice_sub hs (a := 12 + B1.length) (b := 8) (by omega)
    rw [h12, this]
    have hd : (c.drop 12).drop B1.length = footer8 ++ B2 := by
      rw [hdrop12]
      exact List.drop_left' rfl
    rw [← List.drop_drop, hd]
    exact List.take_left' rfl
  have hB2slice : slice body (off + 12 + B1.length + 8) B2.length = B2 := by
    have h12 : off + 12 + B1.length + 8 = off + (12 + B1.length + 8) := by omega
    have := slice_sub hs (a := 12 + B1.length + 8) (b := B2.length) (by omega)
    rw [h12, this]
    have hd : ((c.drop 12).drop B1.length).drop 8 = B2 := by
      rw [hdrop12, List.drop_left' rfl]
      exact List.drop_left' rfl
    rw [← List.drop_drop, ← List.drop_drop, hd]
    exact List.take_of_length_le le_rfl
  -- run the params loop across B1, the skipped footer, then B2
  have hplim : (off : Int) + (((12 + (B1 ++ footer8 ++ B2).length) / 4 * 4 : Nat) : Int)
      = (off : Int) + (c.length : Int) := by
    rw [hfw4]
  have hps1cnt : ps1.length ≤ body.length := by omega
  have hps2cnt : ps2.length ≤ body.length - ps1.length := by omega
  have hps1 := decodeParams_step_list
    (fun q hq => hf.2.2 q (by rw [hsplit]; exact List.mem_append_left _ hq))
    hp1 ((off : Int) + (((12 + (B1 ++ footer8 ++ B2).length) / 4 * 4 : Nat) : Int))
    hB1slice
    (by rw [hplim]; push_cast; omega)
    (body.length + 1) (by omega) [] warns
  have hfA : body.length + 1 - ps1.length = (body.length - ps1.length) + 1 := by omega
  have hskip := decodeParams_step_footer
    ((off : Int) + (((12 + (B1 ++ footer8 ++ B2).length) / 4 * 4 : Nat) : Int))
    hfootslice
    (by rw [hplim]; push_cast; omega)
    (body.length - ps1.length) ([] ++ ps1.map decParamOf) warns
  have hps2 := decodeParams_step_list
    (fun q hq => hf.2.2 q (by rw [hsplit]; exact List.mem_append_right _ hq))
    hp2 ((off : Int) + (((12 + (B1 ++ footer8 ++ B2).length) / 4 * 4 : Nat) : Int))
    hB2slice
    (by push_cast at hplim ⊢; omega)
    (body.length - ps1.length) hps2cnt ([] ++ ps1.map decParamOf) (warns + 1)
  conv_lhs => rw [decodeFields]
  rw [if_pos hoff_lt, if_neg (by omega : ¬ (body.length < off + 12))]
  simp only [hsize', hfid', hname]
  rw [hps1, hfA, hskip]
  have hoffB2 : off + 12 + B1.length + 8 = off + 12 + B1.length + 8 := rfl
  rw [show off + 12 + B1.length + 8 + B2.length
      = off + 12 + B1.length + 8 + B2.length from rfl] at hps2
  rw [hps2]
  rw [decodeParams_exit
    (by push_cast at hplim ⊢; omega)
    _ _ _]
  dsimp only
  rw [wfName_rstrip_pad4 hf.1]
  have hmaps : ([] ++ ps1.map decParamOf) ++ ps2.map decParamOf
      = f.params.map decParamOf := by
    rw [hsplit, List.map_append]
    simp
  rw [hmaps]
  have hoffc : off + 12 + B1.length + 8 + B2.length = off + c.length := by omega
  rw [hoffc]
  rfl

/-- Decoding the glitched encoding of a structurally well-formed packet:
the same decoded packet as the clean encoding, with exactly one warning. -/
theorem decodePacket_glitch {pt : List Nat} {pid : Nat} {time : NCPTime}
    {info : List Nat} {fs1 : List NCPField} {f : NCPField}
    {ps1 ps2 : List NCPParam} {fs2 : List NCPField} {gbuf : List Nat}
    (hp : wfPacket ⟨pt, pid, time, info, fs1 ++ f :: fs2⟩)
    (hsplit : f.params = ps1 ++ ps2)
    (hg : glitchEncodePacket pt pid time info fs1 f ps1 ps2 fs2 = some gbuf) :
    decodePacket gbuf = .ok (decPacketOf ⟨pt, pid, time, info, fs1 ++ f :: fs2⟩, 1) := by
  obtain ⟨hty, hpid, hsec, hmic, hinfo4, _, hfwf⟩ := hp
  obtain ⟨b1, gb, b2, hb1, hgb, hb2, hw, hpid', hsec', hmic', hbeq⟩ :=
    glitchEncodePacket_eq hg
  obtain ⟨hm1, hcnt1⟩ := encodeFields_length_facts hb1
  obtain ⟨hm2, hcnt2⟩ := encodeFields_length_facts hb2
  obtain ⟨B1, B2, hP1, hP2, _, _, hgbeq⟩ := glitchField_eq hgb
  obtain ⟨hmB1, _⟩ := encodeParams_length_facts hP1
  obtain ⟨hmB2, _⟩ := encodeParams_length_facts hP2
  have hgblen : gb.length = 12 + (B1.length + 8 + B2.length) := by
    rw [hgbeq]
    simp [pad4_length, toLE_length, footer8_length]
    omega
  have hgbmod : gb.length % 4 = 0 := by omega
  have hgbge : 20 ≤ gb.length := by omega
  have hfwf1 : ∀ q ∈ fs1, wfField q := fun q hq => hfwf q (by simp [hq])
  have hfwff : wfField f := hfwf f (by simp)
  have hfwf2 : ∀ q ∈ fs2, wfField q := fun q hq => hfwf q (by simp [hq])
  have hfblen : (b1 ++ gb ++ b2).length = b1.length + gb.length + b2.length := by
    simp
    omega
  have hbeq' : gbuf = headerMagic ++ (pad4 pt
      ++ (toLE 4 ((32 + (b1 ++ gb ++ b2).length + 8) / 4)
      ++ (toLE 4 pid ++ (toLE 4 1 ++ (toLE 4 time.sec
      ++ (toLE 4 (time.micro * 1000) ++ (pad4 info
      ++ (b1 ++ (gb ++ (b2 ++ footer8)))))))))) := by
    rw [hbeq]
    simp [List.append_assoc]
  have hmag4 : headerMagic.length = 4 := rfl
  have hd4 : gbuf.drop 4 = pad4 pt
      ++ (toLE 4 ((32 + (b1 ++ gb ++ b2).length + 8) / 4)
      ++ (toLE 4 pid ++ (toLE 4 1 ++ (toLE 4 time.sec
      ++ (toLE 4 (time.micro * 1000) ++ (pad4 info
      ++ (b1 ++ (gb ++ (b2 ++ footer8))))))))) := by
    conv_lhs => rw [hbeq']
    exact List.drop_left' hmag4
  have hd8 : gbuf.drop 8 = toLE 4 ((32 + (b1 ++ gb ++ b2).length + 8) / 4)
      ++ (toLE 4 pid ++ (toLE 4 1 ++ (toLE 4 time.sec
      ++ (toLE 4 (time.micro * 1000) ++ (pad4 info
      ++ (b1 ++ (gb ++ (b2 ++ footer8)))))))) := by
    have h2 : gbuf.drop 8 = (gbuf.drop 4).drop 4 := by rw [List.drop_drop]
    rw [h2, hd4]
    exact List.drop_left' (pad4_length _)
  have hd12 : gbuf.drop 12 = toLE 4 pid ++ (toLE 4 1 ++ (toLE 4 time.sec
      ++ (toLE 4 (time.micro * 1000) ++ (pad4 info
      ++ (b1 ++ (gb ++ (b2 ++ footer8))))))) := by
    have h2 : gbuf.drop 12 = (gbuf.drop 8).drop 4 := by rw [List.drop_drop]
    rw [h2, hd8]
    exact List.drop_left' (toLE_length 4 _)
  have hd16 : gbuf.drop 16 = toLE 4 1 ++ (toLE 4 time.sec
      ++ (toLE 4 (time.micro * 1000) ++ (pad4 info
      ++ (b1 ++ (gb ++ (b2 ++ footer8)))))) := by
    have h2 : gbuf.drop 16 = (gbuf.drop 12).drop 4 := by rw [List.drop_drop]
    rw [h2, hd12]
    exact List.drop_left' (toLE_length 4 _)
  have hd20 : gbuf.drop 20 = toLE 4 time.sec
      ++ (toLE 4 (time.micro * 1000) ++ (pad4 info
      ++ (b1 ++ (gb ++ (b2 ++ footer8))))) := by
    have h2 : gbuf.drop 20 = (gbuf.drop 16).drop 4 := by rw [List.drop_drop]
    rw [h2, hd16]
    exact List.drop_left' (toLE_length 4 _)
  have hd24 : gbuf.drop 24 = toLE 4 (time.micro * 1000)
      ++ (pad4 info ++ (b1 ++ (gb ++ (b2 ++ footer8)))) := by
    have h2 : gbuf.drop 24 = (gbuf.drop 20).drop 4 := by rw [List.drop_drop]
    rw [h2, hd20]
    exact List.drop_left' (toLE_length 4 _)
  have hd28 : gbuf.drop 28 = pad4 info ++ (b1 ++ (gb ++ (b2 ++ footer8))) := by
    have h2 : gbuf.drop 28 = (gbuf.drop 24).drop 4 := by rw [List.drop_drop]
    rw [h2, hd24]
    exact List.drop_left' (toLE_length 4 _)
  have hd32 : gbuf.drop 32 = b1 ++ (gb ++ (b2 ++ footer8)) := by
    have h2 : gbuf.drop 32 = (gbuf.drop 28).drop 4 := by rw [List.drop_drop]
    rw [h2, hd28]
    exact List.drop_left' (pad4_length _)
  have hbuflen : gbuf.length = 40 + (b1.length + gb.length + b2.length) := by
    rw [hbeq']
    simp [pad4_length, toLE_length, footer8_length]
    omega
  have hs0 : slice gbuf 0 4 = headerMagic := by
    show (gbuf.drop 0).take 4 = headerMagic
    rw [List.drop_zero]
    conv_lhs => rw [hbeq']
    exact List.take_left' hmag4
  have hs4 : slice gbuf 4 4 = pad4 pt := by
    show (gbuf.drop 4).take 4 = pad4 pt
    rw [hd4]
    exact List.take_left' (pad4_length _)
  have hs8 : slice gbuf 8 4 = toLE 4 ((32 + (b1 ++ gb ++ b2).length + 8) / 4) := by
    show (gbuf.drop 8).take 4 = _
    rw [hd8]
    exact List.take_left' (toLE_length 4 _)
  have hs12 : slice gbuf 12 4 = toLE 4 pid := by
    show (gbuf.drop 12).take 4 = _
    rw [hd12]
    exact List.take_left' (toLE_length 4 _)
  have hs20 : slice gbuf 20 4 = toLE 4 time.sec := by
    show (gbuf.drop 20).take 4 = _
    rw [hd20]
    exact List.take_left' (toLE_length 4 _)
  have hs24 : slice gbuf 24 4 = toLE 4 (time.micro * 1000) := by
    show (gbuf.drop 24).take 4 = _
    rw [hd24]
    exact List.take_left' (toLE_length 4 _)
  have hs28 : slice gbuf 28 4 = pad4 info := by
    show (gbuf.drop 28).take 4 = _
    rw [hd28]
    exact List.take_left' (pad4_length _)
  have hw4 : ((32 + (b1 ++ gb ++ b2).length + 8) / 4) * 4
      = 40 + (b1.length + gb.length + b2.length) := by
    rw [hfblen]
    omega
  have hfrom8 : fromLE (slice gbuf 8 4) = (32 + (b1 ++ gb ++ b2).length + 8) / 4 := by
    rw [hs8, fromLE_toLE (by rw [hfblen]; norm_num; omega)]
  have hfoot : lastN 4 (gbuf.drop 32) = footerMagic := by
    rw [hd32]
    have h4f : 4 ≤ (gb ++ (b2 ++ footer8)).length := by
      simp [footer8_length]
      omega
    rw [lastN_append h4f]
    rw [lastN_append (by simp [footer8_length] : 4 ≤ (b2 ++ footer8).length)]
    rw [lastN_append (by simp [footer8_length] : 4 ≤ footer8.length)]
    rfl
  have hflim : ((fromLE (slice gbuf 8 4) * 4 : Nat) - 32 - 8 : Int)
      = ((b1.length + gb.length + b2.length : Nat) : Int) := by
    rw [hfrom8]
    push_cast [hw4]
    omega
  have hbodylen : (gbuf.drop 32).length = b1.length + gb.length + b2.length + 8 := by
    rw [hd32]
    simp [footer8_length]
    omega
  have hsb1 : slice (gbuf.drop 32) 0 b1.length = b1 := by
    show ((gbuf.drop 32).drop 0).take b1.length = b1
    rw [List.drop_zero, hd32]
    exact List.take_left' rfl
  have hsgb : slice (gbuf.drop 32) b1.length gb.length = gb := by
    show ((gbuf.drop 32).drop b1.length).take gb.length = gb
    rw [hd32, List.drop_left' rfl]
    exact List.take_left' rfl
  have hsb2 : slice (gbuf.drop 32) (b1.length + gb.length) b2.length = b2 := by
    show ((gbuf.drop 32).drop (b1.length + gb.length)).take b2.length = b2
    rw [hd32, ← List.drop_drop, List.drop_left' rfl, List.drop_left' rfl]
    exact List.take_left' rfl
  have hs1cnt : fs1.length ≤ (gbuf.drop 32).length := by omega
  have hfields1 := decodeFields_step_list
    hfwf1 hb1 ((fromLE (slice gbuf 8 4) * 4 : Nat) - 32 - 8 : Int) hsb1
    (by rw [hflim]; push_cast; omega)
    ((gbuf.drop 32).length + 1)
    (by omega)
    [] 0
  have hfA : (gbuf.drop 32).length + 1 - fs1.length
      = ((gbuf.drop 32).length - fs1.length) + 1 := by omega
  have hsgb0 : slice (gbuf.drop 32) (0 + b1.length) gb.length = gb := by
    rw [Nat.zero_add]
    exact hsgb
  have hsb20 : slice (gbuf.drop 32) (0 + b1.length + gb.length) b2.length = b2 := by
    rw [Nat.zero_add]
    exact hsb2
  have hglitch := decodeFields_step_glitch
    hsplit hfwff hgb ((fromLE (slice gbuf 8 4) * 4 : Nat) - 32 - 8 : Int) hsgb0
    (by rw [hflim]; push_cast; omega)
    ((gbuf.drop 32).length - fs1.length) ([] ++ fs1.map decFieldOf) 0
  have hfields2 := decodeFields_step_list
    hfwf2 hb2 ((fromLE (slice gbuf 8 4) * 4 : Nat) - 32 - 8 : Int) hsb20
    (by rw [hflim]; push_cast; omega)
    ((gbuf.drop 32).length - fs1.length)
    (by omega)
    ([] ++ fs1.map decFieldOf ++ [decFieldOf f]) (0 + 1)
  rw [decodePacket, if_neg (by omega : ¬ (gbuf.length < 32)),
    if_neg (show ¬ (slice gbuf 0 4 ≠ headerMagic) by rw [hs0]; simp),
    if_neg (show ¬ (lastN 4 (gbuf.drop 32) ≠ footerMagic) by rw [hfoot]; simp)]
  rw [hfields1, hfA]
  rw [hglitch]
  rw [hfields2]
  rw [decodeFields_exit (by rw [hflim]; push_cast; omega) _ _ _]
  dsimp only
  rw [if_neg (by rw [hflim]; push_cast; omega)]
  have htime : unixToTime (fromLE (slice gbuf 20 4)) (fromLE (slice gbuf 24 4))
      = time := by
    rw [hs20, hs24, fromLE_toLE (by norm_num; omega), fromLE_toLE (by norm_num; omega)]
    cases time with
    | mk s m =>
      simp only [unixToTime]
      congr 1
      omega
  rw [hs12, hs4, hs28, htime, fromLE_toLE (by norm_num; omega)]
  rw [wfName_rstrip_pad4 hty, pad4_of_length_eq hinfo4]
  have hfieldsmap : [] ++ fs1.map decFieldOf ++ [decFieldOf f] ++ fs2.map decFieldOf
      = (fs1 ++ f :: fs2).map decFieldOf := by
    simp
  rw [hfieldsmap]
  rfl

theorem odGet_insert (k k' : List Nat) (v : DVal) (d : List (List Nat × DVal)) :
    odGet k (odInsert k' v d) = if k' = k then some v else odGet k d := by
  induction d with
  | nil => simp [odInsert, odGet]
  | cons a rest ih =>
    obtain ⟨ak, av⟩ := a
    by_cases hak : ak = k'
    · subst hak
      simp only [odInsert, if_pos rfl, odGet]
      by_cases hkk : ak = k <;> simp [hkk]
    · simp only [odInsert, if_neg hak, odGet]
      by_cases hkk : ak = k
      · subst hkk
        rw [if_pos rfl, if_neg (fun hc => hak hc.symm), if_pos rfl]
      · rw [if_neg hkk, ih, if_neg hkk]

theorem odGet_foldl (k : List Nat) (ps : List (List Nat × DVal))
    (d : List (List Nat × DVal)) :
    odGet k (ps.foldl (fun d kv => odInsert kv.1 kv.2 d) d)
      = match lastAssoc k ps with
        | some v => some v
        | none => odGet k d := by
  induction ps generalizing d with
  | nil => simp [lastAssoc]
  | cons a ps ih =>
    obtain ⟨ak, av⟩ := a
    rw [List.foldl_cons, ih]
    show _ = (match lastAssoc k ((ak, av) :: ps) with
      | some v => some v
      | none => odGet k d)
    rw [show lastAssoc k ((ak, av) :: ps)
        = (match lastAssoc k ps with
           | some v' => some v'
           | none => if ak = k then some av else none) from rfl]
    cases lastAssoc k ps with
    | some v' => rfl
    | none =>
      rw [odGet_insert]
      dsimp only
      by_cases h : ak = k
      · simp [h]
      · simp [h]

theorem odCount_insert_ne {k k' : List Nat} (hne : k' ≠ k) (v : DVal)
    (d : List (List Nat × DVal)) : odCount k (odInsert k' v d) = odCount k d := by
  induction d with
  | nil => simp [odInsert, odCount, hne]
  | cons a rest ih =>
    obtain ⟨ak, av⟩ := a
    by_cases hak : ak = k'
    · subst hak
      simp only [odInsert, if_pos rfl, odCount, if_neg hne]
    · simp only [odInsert, if_neg hak, odCount]
      omega

theorem odCount_insert_self {k : List Nat} (v : DVal)
    {d : List (List Nat × DVal)} (hd : odCount k d ≤ 1) :
    odCount k (odInsert k v d) ≤ 1 := by
  induction d with
  | nil => simp [odInsert, odCount]
  | cons a rest ih =>
    obtain ⟨ak, av⟩ := a
    by_cases hak : ak = k
    · subst hak
      simp only [odInsert, if_pos rfl, odCount, if_pos rfl] at hd ⊢
      omega
    · simp only [odInsert, if_neg hak, odCount, if_neg hak] at hd ⊢
      have := ih (by omega)
      omega

theorem odCount_foldl {ps : List (List Nat × DVal)}
    {d : List (List Nat × DVal)} (hd : ∀ k, odCount k d ≤ 1) (k : List Nat) :
    odCount k (ps.foldl (fun d kv => odInsert kv.1 kv.2 d) d) ≤ 1 := by
  induction ps generalizing d with
  | nil => exact hd k
  | cons a ps ih =>
    rw [List.foldl_cons]
    refine ih (fun k' => ?_)
    by_cases h : a.1 = k'
    · subst h
      exact odCount_insert_self a.2 (hd a.1)
    · rw [odCount_insert_ne h]
      exact hd k'

/-- The legacy field loop computes the ordered-dictionary fold of the
wire-order pair list. -/
theorem fieldLoopD_eq_fold (raw : Bool) (fuel : Nat) (pdata : List Nat)
    (pos : Nat) (od : List (List Nat × DVal)) :
    fieldLoopD raw fuel pdata pos od
      = (collectLoopD raw fuel pdata pos).map
          (fun ps => ps.foldl (fun d kv => odInsert kv.1 kv.2 d) od) := by
  induction fuel generalizing pos od with
  | zero =>
    by_cases h1 : pos < pdata.length
    · simp [fieldLoopD, collectLoopD, h1]
    · by_cases h2 : pos = pdata.length <;>
        simp [fieldLoopD, collectLoopD, h1, h2]
  | succ fuel ih =>
    by_cases h1 : pos < pdata.length
    · rw [fieldLoopD, collectLoopD, if_pos h1, if_pos h1]
      cases hpd : decodeParamD raw (pdata.drop pos) with
      | mk pname rest =>
        obtain ⟨psize, pval?⟩ := rest
        cases pval? with
        | none => rfl
        | some pval =>
          dsimp only
          rw [ih, Option.map_map]
          rfl
    · by_cases h2 : pos = pdata.length <;>
        simp [fieldLoopD, collectLoopD, h1, h2]

/-- The params loop can only fail with fuel exhaustion, a short read, or
a parameter overflow. -/
theorem decodeParams_err {fuel : Nat} {body : List Nat} {off : Nat} {plim : Int}
    {acc : List NCPParam} {warns : Nat} {e : DecErr}
    (h : decodeParams fuel body off plim acc warns = .error e) :
    e = .fuelOut ∨ e = .shortRead ∨ e = .paramOverflow := by
  induction fuel generalizing off acc warns with
  | zero =>
    unfold decodeParams at h
    split at h
    · injection h with h
      exact Or.inl h.symm
    · exact absurd h (by simp)
  | succ fuel ih =>
    unfold decodeParams at h
    split at h
    · split at h
      · exact ih h
      · split at h
        · injection h with h
          exact Or.inr (Or.inl h.symm)
        · dsimp only at h
          split at h
          · injection h with h
            exact Or.inr (Or.inr h.symm)
          · exact ih h
    · exact absurd h (by simp)

/-- The fields loop can only fail with fuel exhaustion, a short read, or
a parameter overflow. -/
theorem decodeFields_err {fuel : Nat} {body : List Nat} {off : Nat} {flim : Int}
    {acc : List NCPField} {warns : Nat} {e : DecErr}
    (h : decodeFields fuel body off flim acc warns = .error e) :
    e = .fuelOut ∨ e = .shortRead ∨ e = .paramOverflow := by
  induction fuel generalizing off acc warns with
  | zero =>
    unfold decodeFields at h
    split at h
    · injection h with h
      exact Or.inl h.symm
    · exact absurd h (by simp)
  | succ fuel ih =>
    unfold decodeFields at h
    split at h
    · split at h
      · injection h with h
        exact Or.inr (Or.inl h.symm)
      · dsimp only at h
        split at h
        next heq =>
          injection h with h
          subst h
          exact decodeParams_err heq
        next => exact ih h
    · exact absurd h (by simp)

/-- The packet size word of an encoded packet times 4 is the exact buffer
length, which is at least 40 and 4-byte aligned. -/
theorem encodePacket_sizeWord {p : NCPPacket} {buf : List Nat}
    (he : encodePacket p = some buf) :
    fromLE (slice buf 8 4) * 4 = buf.length ∧ 40 ≤ buf.length ∧ buf.length % 4 = 0 := by
  obtain ⟨fb, hfb, hw, _, _, _, hbeq⟩ := encodePacket_eq he
  obtain ⟨hfbmod, _⟩ := encodeFields_length_facts hfb
  have hbeq' : buf = headerMagic ++ (pad4 p.ptype
      ++ (toLE 4 ((32 + fb.length + 8) / 4)
      ++ (toLE 4 p.pid ++ (toLE 4 1 ++ (toLE 4 p.time.sec
      ++ (toLE 4 (p.time.micro * 1000) ++ (pad4 p.info ++ (fb ++ footer8)))))))) := by
    rw [hbeq]
    simp [List.append_assoc]
  have hbuflen : buf.length = 40 + fb.length := by
    rw [hbeq']
    simp [pad4_length, toLE_length, footer8, headerMagic]
    omega
  have hd8 : buf.drop 8 = toLE 4 ((32 + fb.length + 8) / 4)
      ++ (toLE 4 p.pid ++ (toLE 4 1 ++ (toLE 4 p.time.sec
      ++ (toLE 4 (p.time.micro * 1000) ++ (pad4 p.info ++ (fb ++ footer8)))))) := by
    have h2 : buf.drop 8 = (buf.drop 4).drop 4 := by rw [List.drop_drop]
    have hd4 : buf.drop 4 = pad4 p.ptype
        ++ (toLE 4 ((32 + fb.length + 8) / 4)
        ++ (toLE 4 p.pid ++ (toLE 4 1 ++ (toLE 4 p.time.sec
        ++ (toLE 4 (p.time.micro * 1000) ++ (pad4 p.info ++ (fb ++ footer8))))))) := by
      conv_lhs => rw [hbeq']
      exact List.drop_left' rfl
    rw [h2, hd4]
    exact List.drop_left' (pad4_length _)
  have hs8 : slice buf 8 4 = toLE 4 ((32 + fb.length + 8) / 4) := by
    show (buf.drop 8).take 4 = _
    rw [hd8]
    exact List.take_left' (toLE_length 4 _)
  refine ⟨?_, by omega, by omega⟩
  rw [hs8, fromLE_toLE (by norm_num; omega)]
  omega

/-- The field size word of an encoded field times 4 is the exact chunk
length. -/
theorem encodeField_sizeWord {f : NCPField} {c : List Nat}
    (he : encodeField f = some c) : fromLE (slice c 4 3) * 4 = c.length := by
  obtain ⟨body, hb, hw, _, hceq⟩ := encodeField_eq he
  obtain ⟨hbmod, _⟩ := encodeParams_length_facts hb
  have hceq' : c = pad4 f.name ++ (toLE 3 ((12 + body.length) / 4)
      ++ ([0] ++ (toLE 4 f.fid ++ body))) := by
    rw [hceq]
    simp [List.append_assoc]
  have hclen : c.length = 12 + body.length := by
    rw [hceq']
    simp [pad4_length, toLE_length]
    omega
  have hs : slice c 4 3 = toLE 3 ((12 + body.length) / 4) := by
    show (c.drop 4).take 3 = _
    conv_lhs => rw [hceq']
    rw [List.drop_left' (pad4_length _)]
    exact List.take_left' (toLE_length 3 _)
  rw [hs, fromLE_toLE (by norm_num; omega)]
  omega

/-- The param size word of an encoded parameter times 4 is the exact
chunk length, and everything after the encoded value is NUL padding. -/
theorem encodeParam_sizeWord {prm : NCPParam} {c : List Nat}
    (he : encodeParam prm = some c) :
    fromLE (slice c 4 3) * 4 = c.length ∧
      ∀ tid ev, encodeValue prm.value = some (tid, ev) →
        c.drop (8 + ev.length) = List.replicate ((4 - (8 + ev.length) % 4) % 4) 0 := by
  obtain ⟨tid, ev, hv, hw, hceq⟩ := encodeParam_eq he
  have hclen := encodeParam_length hceq
  have hceq' : c = pad4 prm.name
      ++ (toLE 3 ((8 + ev.length + (4 - (8 + ev.length) % 4) % 4) / 4)
        ++ ([tid] ++ (ev ++ List.replicate ((4 - (8 + ev.length) % 4) % 4) 0))) := by
    rw [hceq]
    simp [List.append_assoc]
  constructor
  · have hs : slice c 4 3
        = toLE 3 ((8 + ev.length + (4 - (8 + ev.length) % 4) % 4) / 4) := by
      show (c.drop 4).take 3 = _
      conv_lhs => rw [hceq']
      rw [List.drop_left' (pad4_length _)]
      exact List.take_left' (toLE_length 3 _)
    rw [hs, fromLE_toLE (by norm_num; omega)]
    omega
  · intro tid' ev' hv'
    rw [hv] at hv'
    have hinj := Option.some.inj hv'
    rw [Prod.mk.injEq] at hinj
    obtain ⟨rfl, rfl⟩ := hinj
    have hd8 : c.drop 8 = ev ++ List.replicate ((4 - (8 + ev.length) % 4) % 4) 0 := by
      have h2 : c.drop 8 = ((c.drop 4).drop 3).drop 1 := by
        rw [List.drop_drop, List.drop_drop]
      rw [h2]
      conv_lhs => rw [hceq']
      rw [List.drop_left' (pad4_length _), List.drop_left' (toLE_length 3 _)]
      rfl
    have h3 : c.drop (8 + ev.length) = (c.drop 8).drop ev.length := by
      rw [List.drop_drop]
    rw [h3, hd8]
    exact List.drop_left' rfl

/-- For buffers at least 36 bytes long, the body's last 4 bytes are the
buffer's last 4 bytes. -/
theorem lastN_four_drop32 {buf : List Nat} (h : 36 ≤ buf.length) :
    lastN 4 (buf.drop 32) = lastN 4 buf := by
  unfold lastN
  rw [List.length_drop, List.drop_drop]
  congr 1
  omega

/-- A small well-formed sample packet (type `PING`, one field `FLD1` with
an integer and a string parameter). -/
def samplePacket : NCPPacket :=
  ⟨[80, 73, 78, 71], 1, ⟨100, 5⟩, [1, 2, 3, 4],
    [⟨[70, 76, 68, 49], 7,
      [⟨[80, 65, 82, 49], .vInt 3⟩, ⟨[80, 65, 82, 50], .vStr [104, 105]⟩]⟩]⟩

/-- A well-formed packet carrying a raw value whose length is not a
multiple of 4. -/
def rawBytePacket : NCPPacket :=
  ⟨[80, 73, 78, 71], 1, ⟨100, 5⟩, [1, 2, 3, 4],
    [⟨[70, 76, 68, 49], 7, [⟨[80, 65, 82, 49], .vRaw [1]⟩]⟩]⟩

/-- C1: for every well-formed packet whose identifiers are 1-4 Latin-1
characters with no trailing space or NUL, whose ids and timestamp fit the
wire, whose info is 4 bytes, and whose parameter values are of the
supported types and additionally survive word padding (strings without
NUL; raw, u8-array and i8-array values of length a multiple of 4; 16-bit
array values with an even element count), decoding the encoding returns
the packet itself, with no warnings. -/
theorem c1_decode_encode_roundtrip {p : NCPPacket} (hp : wfPacketRT p)
    {buf : List Nat} (he : encodePacket p = some buf) :
    decodePacket buf = .ok (p, 0) := by
  rw [decodePacket_encodePacket hp.1 he, decPacketOf_eq_self hp]

/-- C1 witness: the sample packet satisfies the hypotheses and round
trips exactly. -/
theorem c1_decode_encode_roundtrip_witness :
    wfPacketRT samplePacket ∧
      decodePacket ((encodePacket samplePacket).getD []) = .ok (samplePacket, 0) :=
  ⟨by decide, c1_decode_encode_roundtrip (by decide) rfl⟩

/-- C1 counterexample: a packet that is well-formed in the claim's sense
(identifiers of 1-4 Latin-1 characters without trailing space or NUL,
u32 ids, microsecond timestamp, 4 info bytes, a supported raw-bytes
value) whose encoding decodes successfully but not to an equal packet:
the raw value `[1]` comes back as `[1, 0, 0, 0]` because the packet
layer's NUL padding is indistinguishable from raw payload. -/
theorem c1_decode_encode_counterexample :
    wfPacket rawBytePacket ∧ (encodePacket rawBytePacket).isSome = true ∧
      decodePacket ((encodePacket rawBytePacket).getD []) ≠
        .ok (rawBytePacket, 0) ∧
      decodePacket ((encodePacket rawBytePacket).getD []) =
        .ok (⟨[80, 73, 78, 71], 1, ⟨100, 5⟩, [1, 2, 3, 4],
          [⟨[70, 76, 68, 49], 7, [⟨[80, 65, 82, 49], .vRaw [1, 0, 0, 0]⟩]⟩]⟩, 0) := by
  refine ⟨by decide, by decide, by decide, by decide⟩

/-- C2: inserting the 8 bytes `00 00 00 00 AA BB CC DD` between two
encoded parameters of a field of a well-formed packet (with the field
and packet size words enlarged to cover them) decodes to the same packet
value as the clean encoding, with exactly one `DecodeWarning` and no
exception. -/
theorem c2_embedded_footer_tolerated
    (pt : List Nat) (pid : Nat) (time : NCPTime) (info : List Nat)
    (fs1 : List NCPField) (f : NCPField) (ps1 ps2 : List NCPParam)
    (fs2 : List NCPField)
    (hsplit : f.params = ps1 ++ ps2) (hne1 : ps1 ≠ []) (hne2 : ps2 ≠ [])
    (hp : wfPacket ⟨pt, pid, time, info, fs1 ++ f :: fs2⟩)
    {buf gbuf : List Nat}
    (he : encodePacket ⟨pt, pid, time, info, fs1 ++ f :: fs2⟩ = some buf)
    (hg : glitchEncodePacket pt pid time info fs1 f ps1 ps2 fs2 = some gbuf) :
    ∃ q, decodePacket buf = .ok (q, 0) ∧ decodePacket gbuf = .ok (q, 1) :=
  ⟨decPacketOf ⟨pt, pid, time, info, fs1 ++ f :: fs2⟩,
    decodePacket_encodePacket hp he, decodePacket_glitch hp hsplit hg⟩

/-- C2 witness: the sample packet with the glitch inserted between its
two parameters decodes to the same packet with one warning. -/
theorem c2_embedded_footer_tolerated_witness :
    ∃ q, decodePacket ((encodePacket samplePacket).getD []) = .ok (q, 0) ∧
      decodePacket ((glitchEncodePacket [80, 73, 78, 71] 1 ⟨100, 5⟩ [1, 2, 3, 4] []
        ⟨[70, 76, 68, 49], 7,
          [⟨[80, 65, 82, 49], .vInt 3⟩, ⟨[80, 65, 82, 50], .vStr [104, 105]⟩]⟩
        [⟨[80, 65, 82, 49], .vInt 3⟩] [⟨[80, 65, 82, 50], .vStr [104, 105]⟩]
        []).getD []) = .ok (q, 1) :=
  c2_embedded_footer_tolerated [80, 73, 78, 71] 1 ⟨100, 5⟩ [1, 2, 3, 4] []
    ⟨[70, 76, 68, 49], 7,
      [⟨[80, 65, 82, 49], .vInt 3⟩, ⟨[80, 65, 82, 50], .vStr [104, 105]⟩]⟩
    [⟨[80, 65, 82, 49], .vInt 3⟩] [⟨[80, 65, 82, 50], .vStr [104, 105]⟩] []
    rfl (by decide) (by decide) (by decide) rfl rfl

/-- C7: `peek_packet_size` on the first 12 bytes of an encoded
well-formed packet returns the full encoded byte count. -/
theorem c7_peek_packet_size {p : NCPPacket} (hp : wfPacket p)
    {buf : List Nat} (he : encodePacket p = some buf) :
    peekPacketSize (buf.take 12) = buf.length := by
  obtain ⟨hsz, _, _⟩ := encodePacket_sizeWord he
  have hsl : slice (buf.take 12) 8 4 = slice buf 8 4 := by
    show ((buf.take 12).drop 8).take 4 = (buf.drop 8).take 4
    rw [List.drop_take, List.take_take]
    norm_num
  rw [peekPacketSize, hsl, hsz]

/-- C7 witness: the sample packet's size field matches its length. -/
theorem c7_peek_packet_size_witness :
    peekPacketSize (((encodePacket samplePacket).getD []).take 12)
      = ((encodePacket samplePacket).getD []).length :=
  c7_peek_packet_size (by decide : wfPacket samplePacket) rfl

/-- C3: when the legacy decoder's field loop succeeds, its ordered
dictionary holds, for each parameter name, the value of the last
occurrence in wire order (the wire-order pair list being what
`collectLoopD` yields), and keeps a single entry per name. -/
theorem c3_duplicate_names_keep_last (raw : Bool) (fuel : Nat) (fd : List Nat)
    {fname : List Nat} {fsize : Nat} {od : List (List Nat × DVal)}
    (hd : decodeFieldD raw fuel fd = some (fname, fsize, od)) :
    ∃ ps, collectLoopD raw fuel (slice fd 12 (fromLE (slice fd 4 3) * 4 - 12)) 0
        = some ps ∧
      (∀ k v, lastAssoc k ps = some v → odGet k od = some v) ∧
      ∀ k, odCount k od ≤ 1 := by
  simp only [decodeFieldD] at hd
  rw [fieldLoopD_eq_fold] at hd
  cases hc : collectLoopD raw fuel (slice fd 12 (fromLE (slice fd 4 3) * 4 - 12)) 0 with
  | none =>
    rw [hc] at hd
    exact absurd hd (by intro hcon; exact Option.noConfusion hcon)
  | some ps =>
    rw [hc] at hd
    simp only [Option.map_some'] at hd
    have hod : od = ps.foldl (fun d kv => odInsert kv.1 kv.2 d) [] := by
      have := congrArg (fun t => t.2.2) (Option.some.inj hd)
      exact this.symm
    refine ⟨ps, rfl, ?_, ?_⟩
    · intro k v hlast
      rw [hod, odGet_foldl, hlast]
    · intro k
      rw [hod]
      exact odCount_foldl (fun _ => by simp [odCount]) k

/-- An encoded field body (as seen by the legacy decoder) with two
parameters named `NAME`, holding 7 and then 9. -/
def dupNameField : List Nat :=
  [70, 76, 68, 65, 9, 0, 0, 0, 1, 0, 0, 0]
    ++ [78, 65, 77, 69, 3, 0, 0, 1, 7, 0, 0, 0]
    ++ [78, 65, 77, 69, 3, 0, 0, 1, 9, 0, 0, 0]

/-- C3 witness: on the duplicate-name field, lookup yields the later
value 9 and the dictionary has one entry for the name. -/
theorem c3_duplicate_names_keep_last_witness :
    odGet [78, 65, 77, 69] [([78, 65, 77, 69], DVal.dInt 9)] = some (.dInt 9) ∧
      odCount [78, 65, 77, 69] [([78, 65, 77, 69], DVal.dInt 9)] ≤ 1 := by
  obtain ⟨ps, hps, hlast, hcount⟩ :=
    @c3_duplicate_names_keep_last false 10 dupNameField [70, 76, 68, 65] 36
      [([78, 65, 77, 69], DVal.dInt 9)] (by decide)
  refine ⟨?_, hcount [78, 65, 77, 69]⟩
  apply hlast
  have hps' : collectLoopD false 10
      (slice dupNameField 12 (fromLE (slice dupNameField 4 3) * 4 - 12)) 0
      = some [([78, 65, 77, 69], DVal.dInt 7), ([78, 65, 77, 69], DVal.dInt 9)] := by
    decide
  rw [hps] at hps'
  rw [Option.some.inj hps']
  decide

/-- A packet whose packet type `LINKX` is five characters long. -/
def longTypePacket : NCPPacket := ⟨[76, 73, 78, 75, 88], 1, ⟨0, 0⟩, [0, 0, 0, 0], []⟩

/-- C4 (amended): packing an identifier into its 4 wire bytes never
fails for length reasons: `struct` `"4s"` packing truncates texts longer
than 4 bytes to their first 4 bytes and NUL-pads shorter ones, so a
packet with an over-long packet type, field name or parameter name still
encodes, carrying the truncated identifier. -/
theorem c4_identifier_truncation :
    (∀ (p : NCPPacket) (buf : List Nat), encodePacket p = some buf →
      slice buf 4 4 = pad4 p.ptype) ∧
    (∀ (f : NCPField) (c : List Nat), encodeField f = some c →
      slice c 0 4 = pad4 f.name) ∧
    (∀ (prm : NCPParam) (c : List Nat), encodeParam prm = some c →
      slice c 0 4 = pad4 prm.name) ∧
    (∀ l : List Nat, 4 ≤ l.length → pad4 l = l.take 4) := by
  refine ⟨?_, ?_, ?_, ?_⟩
  · intro p buf he
    obtain ⟨fb, _, _, _, _, _, hbeq⟩ := encodePacket_eq he
    have hbeq' : buf = headerMagic ++ (pad4 p.ptype
        ++ (toLE 4 ((32 + fb.length + 8) / 4)
        ++ (toLE 4 p.pid ++ (toLE 4 1 ++ (toLE 4 p.time.sec
        ++ (toLE 4 (p.time.micro * 1000) ++ (pad4 p.info ++ (fb ++ footer8)))))))) := by
      rw [hbeq]
      simp [List.append_assoc]
    have hd4 : buf.drop 4 = pad4 p.ptype
        ++ (toLE 4 ((32 + fb.length + 8) / 4)
        ++ (toLE 4 p.pid ++ (toLE 4 1 ++ (toLE 4 p.time.sec
        ++ (toLE 4 (p.time.micro * 1000) ++ (pad4 p.info ++ (fb ++ footer8))))))) := by
      conv_lhs => rw [hbeq']
      exact List.drop_left' rfl
    show (buf.drop 4).take 4 = pad4 p.ptype
    rw [hd4]
    exact List.take_left' (pad4_length _)
  · intro f c he
    obtain ⟨body, _, _, _, hceq⟩ := encodeField_eq he
    show (c.drop 0).take 4 = pad4 f.name
    rw [List.drop_zero]
    conv_lhs =>
      rw [hceq, List.append_assoc, List.append_assoc, List.append_assoc]
    exact List.take_left' (pad4_length _)
  · intro prm c he
    obtain ⟨tid, ev, _, _, hceq⟩ := encodeParam_eq he
    show (c.drop 0).take 4 = pad4 prm.name
    rw [List.drop_zero]
    conv_lhs =>
      rw [hceq, List.append_assoc, List.append_assoc, List.append_assoc]
    exact List.take_left' (pad4_length _)
  · intro l hl
    rw [pad4, show 4 - l.length = 0 from by omega]
    simp

/-- C4 counterexample: the claim says encoding a packet whose type is
longer than 4 characters fails rather than producing a wire frame; in
fact `LINKX` encodes successfully and the frame carries the truncated
type `LINK`. -/
theorem c4_identifier_truncation_counterexample :
    4 < longTypePacket.ptype.length ∧
      (encodePacket longTypePacket).isSome = true ∧
      slice ((encodePacket longTypePacket).getD []) 4 4 = [76, 73, 78, 75] := by
  refine ⟨by decide, by decide, by decide⟩

/-- C4 witness: the truncation conclusions at the over-long packet. -/
theorem c4_identifier_truncation_witness :
    slice ((encodePacket longTypePacket).getD []) 4 4 = pad4 longTypePacket.ptype ∧
      pad4 longTypePacket.ptype = longTypePacket.ptype.take 4 :=
  ⟨c4_identifier_truncation.1 longTypePacket _ rfl,
    c4_identifier_truncation.2.2.2 longTypePacket.ptype (by decide)⟩

/-- C5: in the output of `encode_packet` on a well-formed packet, the
packet size word times 4 is the buffer length (at least 40, 4-byte
aligned), each encoded field's size word times 4 is its exact chunk
length, each encoded parameter's size word times 4 is its exact chunk
length (8-byte header plus padded value), and every padding byte after
an encoded value is 0x00. -/
theorem c5_size_words_exact {p : NCPPacket} (hp : wfPacket p)
    {buf : List Nat} (he : encodePacket p = some buf) :
    (fromLE (slice buf 8 4) * 4 = buf.length ∧ 40 ≤ buf.length ∧
      buf.length % 4 = 0) ∧
    (∀ f ∈ p.fields, ∀ c, encodeField f = some c →
      fromLE (slice c 4 3) * 4 = c.length) ∧
    (∀ f ∈ p.fields, ∀ prm ∈ f.params, ∀ c, encodeParam prm = some c →
      fromLE (slice c 4 3) * 4 = c.length ∧
      ∀ tid ev, encodeValue prm.value = some (tid, ev) →
        c.drop (8 + ev.length) = List.replicate ((4 - (8 + ev.length) % 4) % 4) 0) :=
  ⟨encodePacket_sizeWord he,
    fun _ _ c hc => encodeField_sizeWord hc,
    fun _ _ _ _ c hc => encodeParam_sizeWord hc⟩

/-- C5 witness: the size-word facts evaluated on the sample packet. -/
theorem c5_size_words_exact_witness :
    fromLE (slice ((encodePacket samplePacket).getD []) 8 4) * 4
        = ((encodePacket samplePacket).getD []).length ∧
      40 ≤ ((encodePacket samplePacket).getD []).length ∧
      ((encodePacket samplePacket).getD []).length % 4 = 0 :=
  (c5_size_words_exact (by decide : wfPacket samplePacket) rfl).1

/-- C6: `decode_packet` fails with the invalid-header `DecodeError` when
the first 4 bytes are not `DD CC BB AA`, fails with the invalid-footer
`DecodeError` when the last 4 bytes are not `AA BB CC DD`, and when both
magic values match it never fails for either of these two reasons. -/
theorem c6_magic_checks (buf : List Nat) (hlen : 40 ≤ buf.length) :
    (slice buf 0 4 ≠ headerMagic → decodePacket buf = .error .badHeader) ∧
    (slice buf 0 4 = headerMagic → lastN 4 buf ≠ footerMagic →
      decodePacket buf = .error .badFooter) ∧
    (slice buf 0 4 = headerMagic → lastN 4 buf = footerMagic →
      decodePacket buf ≠ .error .badHeader ∧
        decodePacket buf ≠ .error .badFooter) := by
  have hfoot := @lastN_four_drop32 buf (by omega)
  refine ⟨?_, ?_, ?_⟩
  · intro hhd
    rw [decodePacket, if_neg (by omega : ¬ (buf.length < 32)), if_pos hhd]
  · intro hhd hft
    rw [decodePacket, if_neg (by omega : ¬ (buf.length < 32)),
      if_neg (show ¬ (slice buf 0 4 ≠ headerMagic) by rw [hhd]; simp),
      if_pos (show lastN 4 (buf.drop 32) ≠ footerMagic by rw [hfoot]; exact hft)]
  · intro hhd hft
    rw [decodePacket, if_neg (by omega : ¬ (buf.length < 32)),
      if_neg (show ¬ (slice buf 0 4 ≠ headerMagic) by rw [hhd]; simp),
      if_neg (show ¬ (lastN 4 (buf.drop 32) ≠ footerMagic) by rw [hfoot, hft]; simp)]
    cases hres : decodeFields ((buf.drop 32).length + 1) (buf.drop 32) 0
        ((fromLE (slice buf 8 4) * 4 : Nat) - 32 - 8 : Int) [] 0 with
    | error e =>
      rcases decodeFields_err hres with rfl | rfl | rfl <;> exact ⟨by simp, by simp⟩
    | ok r =>
      obtain ⟨fields, off, warns⟩ := r
      dsimp only
      split <;> exact ⟨by simp, by simp⟩

/-- A buffer with a corrupted header magic. -/
def badHeaderBuf : List Nat := 0 :: (((encodePacket samplePacket).getD []).drop 1)

/-- C6 witness: the corrupted-header sample buffer fails with the
invalid-header error. -/
theorem c6_magic_checks_witness : decodePacket badHeaderBuf = .error .badHeader :=
  (c6_magic_checks badHeaderBuf (by decide)).1 (by decide)

/-- C8: for every parameter payload and every 1-byte type tag outside
the ten defined tags, the legacy decoder does not fail and does not drop
the parameter: the value is surfaced as an opaque pair of the original
tag and the payload bytes. -/
theorem c8_unknown_tag_preserved (tag : Nat) (data : List Nat)
    (h : tag ∉ ([0, 1, 2, 128, 129, 130, 131, 132, 133, 134] : List Nat)) :
    decodeParamValueD tag data = some (.rawPair tag data) := by
  unfold decodeParamValueD
  split
  · exact absurd (by simp) h
  · exact absurd (by simp) h
  · exact absurd (by simp) h
  · exact absurd (by simp) h
  · exact absurd (by simp) h
  · exact absurd (by simp) h
  · exact absurd (by simp) h
  · exact absurd (by simp) h
  · exact absurd (by simp) h
  · exact absurd (by simp) h
  · rfl

/-- C8 witness: tag 5 is surfaced as a raw pair. -/
theorem c8_unknown_tag_preserved_witness :
    decodeParamValueD 5 [1, 2, 3] = some (.rawPair 5 [1, 2, 3]) :=
  c8_unknown_tag_preserved 5 [1, 2, 3] (by decide)

/-- The body (after the 32-byte header) of a packet whose single field
declares one parameter with size-in-words 0. -/
def zeroSizeParamBody : List Nat :=
  [70, 76, 68, 49, 5, 0, 0, 0, 1, 0, 0, 0]
    ++ [80, 65, 82, 49, 0, 0, 0, 0]
    ++ [0, 0, 0, 0, 170, 187, 204, 221]

/-- A complete 60-byte packet whose single field declares one parameter
with size-in-words 0. -/
def zeroSizeParamPacket : List Nat :=
  [221, 204, 187, 170, 80, 73, 78, 71, 15, 0, 0, 0, 1, 0, 0, 0,
    1, 0, 0, 0, 0, 0, 0, 0, 0, 0, 0, 0, 0, 0, 0, 0] ++ zeroSizeParamBody

/-- C9: the claim says `decode_packet` terminates on every finite
buffer; in fact a parameter header declaring a size-in-words of 0 makes
the params loop of `decode_packet_cps` advance its offset by 0 bytes
forever: every fuel bound is exhausted, so the Python loop never
terminates and `decode_packet` on such a packet does not return. -/
theorem c9_zero_size_param_loops_forever :
    (∀ (fuel : Nat) (acc : List NCPParam) (warns : Nat),
      decodeParams fuel zeroSizeParamBody 12 20 acc warns = .error .fuelOut) ∧
    decodePacket zeroSizeParamPacket = .error .fuelOut := by
  constructor
  · intro fuel acc warns
    induction fuel generalizing acc with
    | zero =>
      rw [decodeParams, if_pos (by norm_num)]
    | succ fuel ih =>
      have hstep : decodeParams (fuel + 1) zeroSizeParamBody 12 20 acc warns
          = decodeParams fuel zeroSizeParamBody 12 20
              (acc ++ [⟨[80, 65, 82, 49], .vInt 0⟩]) warns := rfl
      rw [hstep]
      exact ih (acc ++ [⟨[80, 65, 82, 49], .vInt 0⟩])
  · decide

/-- C10: the legacy decoder splits every parameter payload at the first
NUL byte before any type-specific decoding, for every type tag and in
raw mode alike: the decoded parameter is unchanged by replacing
everything after the payload's first NUL. -/
theorem c10_split_at_first_nul (raw : Bool) (hdr v j1 j2 : List Nat)
    (h8 : hdr.length = 8) (hv : 0 ∉ v) :
    decodeParamD raw (hdr ++ (v ++ (0 :: j1)))
      = decodeParamD raw (hdr ++ (v ++ (0 :: j2))) := by
  unfold decodeParamD
  have hname : ∀ j : List Nat, (hdr ++ (v ++ (0 :: j))).take 4 = hdr.take 4 :=
    fun j => List.take_append_of_le_length (by omega)
  have hs43 : ∀ j : List Nat, slice (hdr ++ (v ++ (0 :: j))) 4 3 = slice hdr 4 3 :=
    fun j => slice_append_left _ (by omega)
  have hs71 : ∀ j : List Nat, slice (hdr ++ (v ++ (0 :: j))) 7 1 = slice hdr 7 1 :=
    fun j => slice_append_left _ (by omega)
  have hval : ∀ j : List Nat,
      ((hdr ++ (v ++ (0 :: j))).drop 8).takeWhile (· ≠ 0) = v := by
    intro j
    rw [List.drop_left' h8]
    exact takeWhile_append_zero j hv
  rw [hname j1, hname j2, hs43 j1, hs43 j2, hs71 j1, hs71 j2, hval j1, hval j2]

/-- C10 witness: a raw-tagged parameter decodes identically for two
different byte tails after the payload's first NUL. -/
theorem c10_split_at_first_nul_witness :
    decodeParamD false ([65, 66, 67, 68, 3, 0, 0, 128] ++ ([5, 6] ++ (0 :: [9, 9])))
      = decodeParamD false ([65, 66, 67, 68, 3, 0, 0, 128] ++ ([5, 6] ++ (0 :: [7]))) :=
  c10_split_at_first_nul false [65, 66, 67, 68, 3, 0, 0, 128] [5, 6] [9, 9] [7]
    (by decide) (by decide)

end NCPSpec
